import Mathlib

/-!
Concurrent deduplicated crawler (`real.go`)

A shallow embedding of `Crawl` as a small-step machine over goroutines, and the
properties of the crawl coordinator proved on that machine.

* The shared map `fetched.m` is a finite association map `VisitMap`, read with
  `mapGet` and written with `mapSet`.
* A Go `error` is `Option Error`: `none` is `nil`, `Error.loading` is the
  package-level sentinel `loading`.
* A `Fetcher` is a function from the URL to the triple `Fetch` returns: the
  link graph of the crawl.  The HTTP fetcher `myFetcher` and the command line
  of `main` are outside the model, and so is the text printed by `Crawl`.
* Every goroutine is a record with a program counter `PC`.  One scheduler step
  `Crawl.step` runs one goroutine up to its next interaction with another
  goroutine: the guard of line 32 together with the critical section of lines
  37-45, the call of line 48, the critical section of lines 51-53 together
  with the test of line 55, one `go` statement of lines 63-66, the start of
  the loop of line 68, one rendezvous on the unbuffered channel `done` (the
  send of line 65 with the receive of line 70), the return of line 73.  A run
  is a schedule: the list of the goroutines that step, in order.
* The fields `calls`, `writes` and `recvd` record what happened: the
  invocations of `Fetch`, the writes to the map, the completed receives.  No
  step reads them.
* The variable `depth` is an `Int`; the only arithmetic is `depth-1` at line
  64, executed when `depth > 0`, so machine overflow cannot occur.
-/

/-- A non-nil Go `error` value.  `loading` is the sentinel of line 27. -/
inductive Error where
  | loading : Error
  | other (msg : String) : Error
  deriving DecidableEq, Repr

/-- What `Fetch` returns: `(body, urls, err)`; `err = none` is Go's `nil`. -/
structure FetchResult where
  body : String
  urls : List String
  err : Option Error
  deriving DecidableEq, Repr

/-- The interface `Fetcher` of lines 14-18. -/
structure Fetcher where
  Fetch : String → FetchResult

/-- The map `fetched.m` of type `map[string]error`. -/
abbrev VisitMap := List (String × Option Error)

/-- Map read `fetched.m[k]` with the comma-ok form: `none` when `k` is absent. -/
def mapGet : VisitMap → String → Option (Option Error)
  | [], _ => none
  | (k', v) :: r, k => if k' = k then some v else mapGet r k

/-- Map write `fetched.m[k] = v`: overwrite the entry of `k` or add one. -/
def mapSet : VisitMap → String → Option Error → VisitMap
  | [], k, v => [(k, v)]
  | (k', v') :: r, k, v => if k' = k then (k, v) :: r else (k', v') :: mapSet r k v

/-- Program counter of a goroutine running `Crawl` (and, for a child, the
`done <- true` that follows it). -/
inductive PC where
  /-- Line 31: `Crawl` has been called; nothing executed yet. -/
  | entry : PC
  /-- After line 45: the URL is marked `loading`; next is `Fetch` (line 48). -/
  | claimed : PC
  /-- After line 48: `Fetch` has returned; next is the write of lines 51-53. -/
  | fetchedPC : PC
  /-- In the loop of lines 61-67; `todo` are the elements not yet ranged over. -/
  | spawning (todo : List String) : PC
  /-- In the loop of lines 68-71; `todo` are the elements not yet ranged over. -/
  | waiting (todo : List String) : PC
  /-- Line 34, 41, 57 or 73: `Crawl` has returned; a child is now at line 65. -/
  | returned : PC
  /-- Child goroutine only: `done <- true` has completed. -/
  | exited : PC
  deriving DecidableEq, Repr

/-- One goroutine: the activation record of its `Crawl` call.  `parent` is the
goroutine whose channel `done` the closure of lines 63-66 captured (`none` for
the call made by `main`).  `res` holds the locals `body, urls, err` once line
48 has run.  `recvd` counts the completed receives of line 70. -/
structure Goroutine where
  parent : Option Nat
  url : String
  depth : Int
  pc : PC
  res : Option FetchResult
  recvd : Nat
  deriving DecidableEq, Repr

/-- Global state.  `fetched` is the shared map; `gs` are all goroutines ever
started, in creation order.  `calls` records every invocation of
`fetcher.Fetch` and `writes` every write to the map, both oldest first. -/
structure State where
  fetched : VisitMap
  calls : List String
  writes : List (String × Option Error)
  gs : List Goroutine
  deriving DecidableEq, Repr

/-- The goroutine started by `go func(url string) {...}(u)` at lines 63-66. -/
def child (p : Nat) (u : String) (d : Int) : Goroutine :=
  { parent := some p, url := u, depth := d - 1, pc := PC.entry, res := none, recvd := 0 }

/-- One step of goroutine `i` in `Crawl`; `none` when `i` is blocked or done. -/
def Crawl.step (fetcher : Fetcher) (s : State) (i : Nat) : Option State :=
  match s.gs[i]? with
  | none => none
  | some t =>
    match t.pc with
    | PC.entry =>
      -- lines 32-45
      if t.depth ≤ 0 then
        some { s with gs := s.gs.set i { t with pc := PC.returned } }
      else
        match mapGet s.fetched t.url with
        | some _ => some { s with gs := s.gs.set i { t with pc := PC.returned } }
        | none =>
          some { s with
            fetched := mapSet s.fetched t.url (some Error.loading)
            writes := s.writes ++ [(t.url, some Error.loading)]
            gs := s.gs.set i { t with pc := PC.claimed } }
    | PC.claimed =>
      -- line 48
      some { s with
        calls := s.calls ++ [t.url]
        gs := s.gs.set i { t with pc := PC.fetchedPC, res := some (fetcher.Fetch t.url) } }
    | PC.fetchedPC =>
      -- lines 51-60
      match t.res with
      | none => none -- not reachable, the locals were assigned at line 48
      | some r =>
        some { s with
          fetched := mapSet s.fetched t.url r.err
          writes := s.writes ++ [(t.url, r.err)]
          gs := s.gs.set i
            { t with pc := if r.err ≠ none then PC.returned else PC.spawning r.urls } }
    | PC.spawning (u :: rest) =>
      -- one iteration of lines 61-67
      some { s with gs := (s.gs.set i { t with pc := PC.spawning rest }) ++ [child i u t.depth] }
    | PC.spawning [] =>
      -- the range loop of line 68 starts
      match t.res with
      | none => none -- not reachable, the locals were assigned at line 48
      | some r => some { s with gs := s.gs.set i { t with pc := PC.waiting r.urls } }
    | PC.waiting (_ :: _) =>
      -- blocked in `<-done` (line 70) until a child sends
      none
    | PC.waiting [] =>
      -- lines 72-73
      some { s with gs := s.gs.set i { t with pc := PC.returned } }
    | PC.returned =>
      -- line 65: `done <- true` on the parent's unbuffered channel
      match t.parent with
      | none => none
      | some p =>
        match s.gs[p]? with
        | none => none
        | some tp =>
          match tp.pc with
          | PC.waiting (_ :: rest) =>
            let gs1 := s.gs.set p { tp with pc := PC.waiting rest, recvd := tp.recvd + 1 }
            some { s with gs := gs1.set i { t with pc := PC.exited } }
          | _ => none
    | PC.exited => none

/-- The goroutine of the caller at the call `Crawl(url, depth, fetcher)`. -/
def rootCall (url : String) (depth : Int) : Goroutine :=
  { parent := none, url := url, depth := depth, pc := PC.entry, res := none, recvd := 0 }

/-- The state in which `main` (or any caller) calls `Crawl(url, depth, fetcher)`
with the map holding `m0`. -/
def Crawl.start (m0 : VisitMap) (url : String) (depth : Int) : State :=
  { fetched := m0, calls := [], writes := [], gs := [rootCall url depth] }

/-- Run the goroutines in the order given by a schedule. -/
def Crawl.run (fetcher : Fetcher) : State → List Nat → Option State
  | s, [] => some s
  | s, i :: rest =>
    match Crawl.step fetcher s i with
    | none => none
    | some s' => Crawl.run fetcher s' rest

/-- The root call of `Crawl` has returned to its caller. -/
def State.rootReturned (s : State) : Prop :=
  ∃ t, s.gs[0]? = some t ∧ t.pc = PC.returned

/-- No goroutine can take a step. -/
def State.stuck (fetcher : Fetcher) (s : State) : Prop :=
  ∀ i, Crawl.step fetcher s i = none

/-- The child goroutines started by goroutine `p`, in the order started. -/
def State.kids (s : State) (p : Nat) : List Goroutine :=
  s.gs.filter (fun c => c.parent = some p)

/-- URLs reachable from `src` by at most `n` links returned by successful fetches. -/
def reachWithin (fetcher : Fetcher) : Nat → String → List String
  | 0, src => [src]
  | n + 1, src =>
    reachWithin fetcher n src ++
      (reachWithin fetcher n src).flatMap
        (fun v => if (fetcher.Fetch v).err = none then (fetcher.Fetch v).urls else [])

/-- The text printed for `err` by `%v`. -/
def Error.text : Error → String
  | Error.loading => "url load in progress"
  | Error.other msg => msg

/-- The lines printed by the loop of lines 104-110 of `main`, in the order of
the entries of the list (Go leaves the order of a map range unspecified). -/
def stats (m : VisitMap) : List String :=
  m.map (fun e =>
    match e.2 with
    | some err => e.1 ++ " failed: " ++ err.text ++ "\n"
    | none => e.1 ++ " was fetched\n")

/-- The step relation of goroutine `i`, one constructor per kind of step of
`Crawl.step`. -/
inductive StepRel (fetcher : Fetcher) (s : State) (i : Nat) : State → Prop where
  | skip (t : Goroutine) (h : s.gs[i]? = some t) (hpc : t.pc = PC.entry)
      (hc : t.depth ≤ 0 ∨ mapGet s.fetched t.url ≠ none) :
      StepRel fetcher s i { s with gs := s.gs.set i { t with pc := PC.returned } }
  | claim (t : Goroutine) (h : s.gs[i]? = some t) (hpc : t.pc = PC.entry)
      (hd : 0 < t.depth) (hm : mapGet s.fetched t.url = none) :
      StepRel fetcher s i
        { s with
          fetched := mapSet s.fetched t.url (some Error.loading)
          writes := s.writes ++ [(t.url, some Error.loading)]
          gs := s.gs.set i { t with pc := PC.claimed } }
  | fetch (t : Goroutine) (h : s.gs[i]? = some t) (hpc : t.pc = PC.claimed) :
      StepRel fetcher s i
        { s with
          calls := s.calls ++ [t.url]
          gs := s.gs.set i { t with pc := PC.fetchedPC, res := some (fetcher.Fetch t.url) } }
  | resolveErr (t : Goroutine) (r : FetchResult) (h : s.gs[i]? = some t)
      (hpc : t.pc = PC.fetchedPC) (hr : t.res = some r) (he : r.err ≠ none) :
      StepRel fetcher s i
        { s with
          fetched := mapSet s.fetched t.url r.err
          writes := s.writes ++ [(t.url, r.err)]
          gs := s.gs.set i { t with pc := PC.returned } }
  | resolveOk (t : Goroutine) (r : FetchResult) (h : s.gs[i]? = some t)
      (hpc : t.pc = PC.fetchedPC) (hr : t.res = some r) (he : r.err = none) :
      StepRel fetcher s i
        { s with
          fetched := mapSet s.fetched t.url r.err
          writes := s.writes ++ [(t.url, r.err)]
          gs := s.gs.set i { t with pc := PC.spawning r.urls } }
  | spawn (t : Goroutine) (u : String) (rest : List String) (h : s.gs[i]? = some t)
      (hpc : t.pc = PC.spawning (u :: rest)) :
      StepRel fetcher s i
        { s with gs := (s.gs.set i { t with pc := PC.spawning rest }) ++ [child i u t.depth] }
  | spawned (t : Goroutine) (r : FetchResult) (h : s.gs[i]? = some t)
      (hpc : t.pc = PC.spawning []) (hr : t.res = some r) :
      StepRel fetcher s i { s with gs := s.gs.set i { t with pc := PC.waiting r.urls } }
  | finish (t : Goroutine) (h : s.gs[i]? = some t) (hpc : t.pc = PC.waiting []) :
      StepRel fetcher s i { s with gs := s.gs.set i { t with pc := PC.returned } }
  | send (t tp : Goroutine) (p : Nat) (u : String) (rest : List String)
      (h : s.gs[i]? = some t) (hpc : t.pc = PC.returned) (hp : t.parent = some p)
      (hgp : s.gs[p]? = some tp) (hppc : tp.pc = PC.waiting (u :: rest)) :
      StepRel fetcher s i
        { s with gs := (s.gs.set p { tp with pc := PC.waiting rest, recvd := tp.recvd + 1 }).set i { t with pc := PC.exited } }

/-- How the record of one goroutine changes in a step: its own step, or the
receive of line 70 completed by a sending child. -/
inductive Moves (fetcher : Fetcher) (m : VisitMap) : Goroutine → Goroutine → Prop where
  | skip (t : Goroutine) (hpc : t.pc = PC.entry)
      (hc : t.depth ≤ 0 ∨ mapGet m t.url ≠ none) :
      Moves fetcher m t { t with pc := PC.returned }
  | claim (t : Goroutine) (hpc : t.pc = PC.entry) (hd : 0 < t.depth)
      (hm : mapGet m t.url = none) :
      Moves fetcher m t { t with pc := PC.claimed }
  | fetch (t : Goroutine) (hpc : t.pc = PC.claimed) :
      Moves fetcher m t { t with pc := PC.fetchedPC, res := some (fetcher.Fetch t.url) }
  | resolveErr (t : Goroutine) (r : FetchResult) (hpc : t.pc = PC.fetchedPC)
      (hr : t.res = some r) (he : r.err ≠ none) :
      Moves fetcher m t { t with pc := PC.returned }
  | resolveOk (t : Goroutine) (r : FetchResult) (hpc : t.pc = PC.fetchedPC)
      (hr : t.res = some r) (he : r.err = none) :
      Moves fetcher m t { t with pc := PC.spawning r.urls }
  | spawn (t : Goroutine) (u : String) (rest : List String)
      (hpc : t.pc = PC.spawning (u :: rest)) :
      Moves fetcher m t { t with pc := PC.spawning rest }
  | spawned (t : Goroutine) (r : FetchResult) (hpc : t.pc = PC.spawning [])
      (hr : t.res = some r) :
      Moves fetcher m t { t with pc := PC.waiting r.urls }
  | finish (t : Goroutine) (hpc : t.pc = PC.waiting []) :
      Moves fetcher m t { t with pc := PC.returned }
  | send (t : Goroutine) (hpc : t.pc = PC.returned) (hp : t.parent ≠ none) :
      Moves fetcher m t { t with pc := PC.exited }
  | recv (t : Goroutine) (u : String) (rest : List String)
      (hpc : t.pc = PC.waiting (u :: rest)) :
      Moves fetcher m t { t with pc := PC.waiting rest, recvd := t.recvd + 1 }

/-- Facts about one goroutine record that follow from its program counter. -/
def LocalOK (fetcher : Fetcher) (t : Goroutine) : Prop :=
  (∀ r, t.res = some r → r = fetcher.Fetch t.url) ∧
  match t.pc with
  | PC.entry => t.res = none ∧ t.recvd = 0
  | PC.claimed => t.res = none ∧ t.recvd = 0 ∧ 0 < t.depth
  | PC.fetchedPC => t.res = some (fetcher.Fetch t.url) ∧ t.recvd = 0 ∧ 0 < t.depth
  | PC.spawning todo =>
    t.res = some (fetcher.Fetch t.url) ∧ t.recvd = 0 ∧ 0 < t.depth ∧
      (fetcher.Fetch t.url).err = none ∧ ∃ pre, pre ++ todo = (fetcher.Fetch t.url).urls
  | PC.waiting _ =>
    t.res = some (fetcher.Fetch t.url) ∧ 0 < t.depth ∧ (fetcher.Fetch t.url).err = none
  | PC.returned => True
  | PC.exited => t.parent ≠ none

/-- The URL of a goroutine lies within the link distance its depth allows. -/
def ReachOK (fetcher : Fetcher) (url0 : String) (depth0 : Int) (t : Goroutine) : Prop :=
  t.depth ≤ depth0 ∧ t.url ∈ reachWithin fetcher (depth0 - t.depth).toNat url0

/-- The values written to key `k`, oldest first. -/
def State.writesTo (s : State) (k : String) : List (Option Error) :=
  (s.writes.filter (fun e => e.1 = k)).map (fun e => e.2)

/-- The number of children of `p` whose `done <- true` has not completed. -/
def aliveOf (gs : List Goroutine) (p : Nat) : Nat :=
  (gs.filter (fun c => c.parent = some p ∧ c.pc ≠ PC.exited)).length

/-- The URL and depth of every child of `p`, in the order started. -/
def kidsKey (gs : List Goroutine) (p : Nat) : List (String × Int) :=
  (gs.filter (fun c => c.parent = some p)).map (fun c => (c.url, c.depth))

/-- The key a goroutine holds in the `loading` state, with a flag telling
whether its `Fetch` has already been called. -/
def Goroutine.holds (t : Goroutine) : Option (String × Bool) :=
  match t.pc with
  | PC.claimed => some (t.url, false)
  | PC.fetchedPC => some (t.url, true)
  | _ => none

/-- Goroutine `j` holds key `k`. -/
def Holds (gs : List Goroutine) (j : Nat) (k : String) (b : Bool) : Prop :=
  ∃ t, gs[j]? = some t ∧ t.holds = some (k, b)

/-- The life cycle of one key: untouched, claimed, fetched, resolved. -/
def KeyInv (fetcher : Fetcher) (s : State) (k : String) : Prop :=
  (s.writesTo k = [] ∧ k ∉ s.calls ∧ ∀ j b, ¬ Holds s.gs j k b) ∨
  (s.writesTo k = [some Error.loading] ∧ k ∉ s.calls ∧
    ∃ j, Holds s.gs j k false ∧ ∀ j' b, Holds s.gs j' k b → j' = j) ∨
  (s.writesTo k = [some Error.loading] ∧ k ∈ s.calls ∧
    ∃ j, Holds s.gs j k true ∧ ∀ j' b, Holds s.gs j' k b → j' = j) ∨
  (s.writesTo k = [some Error.loading, (fetcher.Fetch k).err] ∧ k ∈ s.calls ∧
    ∀ j b, ¬ Holds s.gs j k b)

/-- The goroutine tree: only goroutine 0 has no parent; a child was started
later than its parent, with the parent's depth minus one. -/
def ParOK (s : State) (j : Nat) (t : Goroutine) : Prop :=
  match t.parent with
  | none => j = 0
  | some p => p < j ∧ ∃ tp, s.gs[p]? = some tp ∧ t.depth = tp.depth - 1

/-- A call that got past the guards of lines 32-42 has its URL in the map. -/
def CoverOK (s : State) (t : Goroutine) : Prop :=
  t.pc ≠ PC.entry → 0 < t.depth → mapGet s.fetched t.url ≠ none

/-- The elements the loop of lines 61-67 has still to range over. -/
def pending (t : Goroutine) : List String :=
  match t.pc with
  | PC.spawning todo => todo
  | _ => []

/-- The URLs for which the call starts a child in total. -/
def target (t : Goroutine) : List String :=
  match t.pc with
  | PC.entry => []
  | PC.claimed => []
  | PC.fetchedPC => []
  | _ =>
    match t.res with
    | some r => if r.err = none then r.urls else []
    | none => []

/-- Children and signals of a call, given the URL and depth of its children
so far (`K`) and the number of them still to signal (`a`): the children started
so far are the ranged-over part of the link list, signals received plus
children still to signal is the number of children, a waiting call has as many
children to signal as receives left, and a call that returned has none. -/
def KC (t : Goroutine) (K : List (String × Int)) (a : Nat) : Prop :=
  K ++ (pending t).map (fun u => (u, t.depth - 1)) = (target t).map (fun u => (u, t.depth - 1)) ∧
  t.recvd + a = K.length ∧
  (∀ todo, t.pc = PC.waiting todo → a = todo.length) ∧
  (t.pc = PC.returned ∨ t.pc = PC.exited → a = 0)

/-- The invariant of every state of a run of `Crawl(url0, depth0, fetcher)`
started with the map holding `m0`. -/
structure CrawlInv (fetcher : Fetcher) (m0 : VisitMap) (url0 : String) (depth0 : Int)
    (s : State) : Prop where
  root : ∃ t, s.gs[0]? = some t ∧ t.parent = none ∧ t.url = url0 ∧ t.depth = depth0
  rootEntry : ∀ t, s.gs[0]? = some t → t.pc = PC.entry → s = Crawl.start m0 url0 depth0
  rootFetched : 0 < depth0 → mapGet m0 url0 = none →
    ∀ t, s.gs[0]? = some t → t.pc = PC.entry ∨ t.pc = PC.claimed ∨ t.res ≠ none
  loc : ∀ (j : Nat) (t : Goroutine), s.gs[j]? = some t → LocalOK fetcher t
  par : ∀ (j : Nat) (t : Goroutine), s.gs[j]? = some t → ParOK s j t
  rch : ∀ (j : Nat) (t : Goroutine), s.gs[j]? = some t → ReachOK fetcher url0 depth0 t
  cov : ∀ (j : Nat) (t : Goroutine), s.gs[j]? = some t → CoverOK s t
  kc : ∀ (j : Nat) (t : Goroutine), s.gs[j]? = some t → KC t (kidsKey s.gs j) (aliveOf s.gs j)
  key : ∀ k, KeyInv fetcher s k
  mapw : ∀ k, mapGet s.fetched k =
    match (s.writesTo k).getLast? with
    | some v => some v
    | none => mapGet m0 k
  fresh : ∀ k, s.writesTo k ≠ [] → mapGet m0 k = none
  nodup : s.calls.Nodup
  callsReach : ∀ u ∈ s.calls, 0 < depth0 ∧ u ∈ reachWithin fetcher (depth0 - 1).toNat url0
  writesReach : ∀ e ∈ s.writes, 0 < depth0 ∧ e.1 ∈ reachWithin fetcher (depth0 - 1).toNat url0

/-- An upper bound on the number of steps taken by a call `Crawl(u, n, fetcher)`
and the calls below it, including the final `done <- true`. -/
def cost (fetcher : Fetcher) : Nat → String → Nat
  | 0, _ => 2
  | n + 1, u => 6 + ((fetcher.Fetch u).urls.map (fun v => 1 + cost fetcher n v)).sum

/-- The steps a goroutine and the children it has still to start can take. -/
def weight (fetcher : Fetcher) (t : Goroutine) : Nat :=
  match t.pc with
  | PC.entry => cost fetcher t.depth.toNat t.url
  | PC.claimed =>
    5 + ((fetcher.Fetch t.url).urls.map (fun v => 1 + cost fetcher (t.depth - 1).toNat v)).sum
  | PC.fetchedPC =>
    4 + (match t.res with
      | some r => (r.urls.map (fun v => 1 + cost fetcher (t.depth - 1).toNat v)).sum
      | none => 0)
  | PC.spawning todo => 3 + (todo.map (fun v => 1 + cost fetcher (t.depth - 1).toNat v)).sum
  | PC.waiting _ => 2
  | PC.returned => 1
  | PC.exited => 0

/-- The termination measure of a state: a bound on the steps still possible. -/
def stepsLeft (fetcher : Fetcher) (s : State) : Nat :=
  (s.gs.map (weight fetcher)).sum

/-! ### Example fetchers and runs -/

/-- The start URL of the example scenario. -/
def seedURL : String := "https://x.test/seed"

/-- Page `a` of the example scenario. -/
def aURL : String := "https://x.test/a"

/-- Page `b` of the example scenario. -/
def bURL : String := "https://x.test/b"

/-- Page `c` of the example scenario. -/
def cURL : String := "https://x.test/c"

/-- A non-nil error as `myFetcher.Fetch` builds it at line 81. -/
def notFound (url : String) : Error := Error.other ("not found: " ++ url)

/-- The stub fetcher of the example scenario,
`seed -> [a, b], a -> [b, c], b -> [], c -> [a]`; any other URL is not found. -/
def stubFetcher : Fetcher where
  Fetch := fun url =>
    if url = seedURL then ⟨"", [aURL, bURL], none⟩
    else if url = aURL then ⟨"", [bURL, cURL], none⟩
    else if url = bURL then ⟨"", [], none⟩
    else if url = cURL then ⟨"", [aURL], none⟩
    else ⟨"", [], some (notFound url)⟩

/-- A schedule that runs `Crawl(seed, 2, stubFetcher)` to completion. -/
def stubSchedule : List Nat :=
  [0, 0, 0, 0, 0, 0, 1, 1, 1, 1, 1, 1, 2, 2, 2, 2, 2, 3, 4, 3, 4, 1, 1, 2, 0]

/-- The state reached by `stubSchedule`. -/
def stubFinal : State :=
  { fetched := [(seedURL, none), (aURL, none), (bURL, none)]
    calls := [seedURL, aURL, bURL]
    writes := [(seedURL, some Error.loading), (seedURL, none), (aURL, some Error.loading),
      (aURL, none), (bURL, some Error.loading), (bURL, none)]
    gs := [
      ⟨none, seedURL, 2, PC.returned, some ⟨"", [aURL, bURL], none⟩, 2⟩,
      ⟨some 0, aURL, 1, PC.exited, some ⟨"", [bURL, cURL], none⟩, 2⟩,
      ⟨some 0, bURL, 1, PC.exited, some ⟨"", [], none⟩, 0⟩,
      ⟨some 1, bURL, 0, PC.exited, none, 0⟩,
      ⟨some 1, cURL, 0, PC.exited, none, 0⟩] }

/-- A fetcher on which every fetch succeeds:
`seed -> [a, b], a -> [b], b -> [c]`, every other page has no links. -/
def chainFetcher : Fetcher where
  Fetch := fun url =>
    if url = seedURL then ⟨"", [aURL, bURL], none⟩
    else if url = aURL then ⟨"", [bURL], none⟩
    else if url = bURL then ⟨"", [cURL], none⟩
    else ⟨"", [], none⟩

/-- A schedule of `Crawl(seed, 3, chainFetcher)` in which the call for `b`
made below `a` runs before the call for `b` made below `seed`.  Goroutine 0 is
`Crawl(seed, 3)`, 1 is `Crawl(a, 2)`, 2 is `Crawl(b, 2)`, 3 is `Crawl(b, 1)`
started by 1, and 4 is `Crawl(c, 0)` started by 3.  Goroutine 0 runs lines
37-67 and blocks at line 70; 1 does the same; 3 claims and fetches `b`, starts
4 and blocks; 4 returns at line 34 and signals 3; 3 returns and signals 1; 1
returns and signals 0; 2 finds `b` in the map, returns at line 41 and signals
0; 0 returns. -/
def chainSchedule : List Nat :=
  [0, 0, 0, 0, 0, 0, 1, 1, 1, 1, 1, 3, 3, 3, 3, 3, 4, 4, 3, 3, 1, 1, 2, 2, 0]

/-- The state reached by `chainSchedule`. -/
def chainFinal : State :=
  { fetched := [(seedURL, none), (aURL, none), (bURL, none)]
    calls := [seedURL, aURL, bURL]
    writes := [(seedURL, some Error.loading), (seedURL, none), (aURL, some Error.loading),
      (aURL, none), (bURL, some Error.loading), (bURL, none)]
    gs := [
      ⟨none, seedURL, 3, PC.returned, some ⟨"", [aURL, bURL], none⟩, 2⟩,
      ⟨some 0, aURL, 2, PC.exited, some ⟨"", [bURL], none⟩, 1⟩,
      ⟨some 0, bURL, 2, PC.exited, none, 0⟩,
      ⟨some 1, bURL, 1, PC.exited, some ⟨"", [cURL], none⟩, 1⟩,
      ⟨some 3, cURL, 0, PC.exited, none, 0⟩] }

/-- The state after a call that returns at line 34 or 41. -/
def Crawl.skipped (m0 : VisitMap) (url : String) (depth : Int) : State :=
  { fetched := m0, calls := [], writes := [],
    gs := [⟨none, url, depth, PC.returned, none, 0⟩] }

/-- The state after line 45 of a call that claimed its URL. -/
def Crawl.claimedState (m0 : VisitMap) (url : String) (depth : Int) : State :=
  { fetched := mapSet m0 url (some Error.loading), calls := [],
    writes := [(url, some Error.loading)],
    gs := [⟨none, url, depth, PC.claimed, none, 0⟩] }

/-- The state after line 48 of a call that claimed its URL. -/
def Crawl.fetchedState (fetcher : Fetcher) (m0 : VisitMap) (url : String) (depth : Int) : State :=
  { fetched := mapSet m0 url (some Error.loading), calls := [url],
    writes := [(url, some Error.loading)],
    gs := [⟨none, url, depth, PC.fetchedPC, some (fetcher.Fetch url), 0⟩] }

/-- The state after the return of line 57 of a call whose fetch failed. -/
def Crawl.failedState (fetcher : Fetcher) (m0 : VisitMap) (url : String) (depth : Int) : State :=
  { fetched := mapSet (mapSet m0 url (some Error.loading)) url (fetcher.Fetch url).err,
    calls := [url],
    writes := [(url, some Error.loading), (url, (fetcher.Fetch url).err)],
    gs := [⟨none, url, depth, PC.returned, some (fetcher.Fetch url), 0⟩] }

/-- A fetcher with a page whose two children behave differently:
`seed -> [a, b]`, `a` is not found, `b` has no links. -/
def siblingFetcher : Fetcher where
  Fetch := fun url =>
    if url = seedURL then ⟨"", [aURL, bURL], none⟩
    else if url = bURL then ⟨"", [], none⟩
    else ⟨"", [], some (notFound url)⟩

/-- A schedule that runs `Crawl(seed, 2, siblingFetcher)` to completion. -/
def siblingSchedule : List Nat :=
  [0, 0, 0, 0, 0, 0, 2, 2, 2, 2, 2, 1, 1, 1, 1, 2, 0]

/-- The state reached by `siblingSchedule`. -/
def siblingFinal : State :=
  { fetched := [(seedURL, none), (bURL, none), (aURL, some (notFound aURL))]
    calls := [seedURL, bURL, aURL]
    writes := [(seedURL, some Error.loading), (seedURL, none), (bURL, some Error.loading),
      (bURL, none), (aURL, some Error.loading), (aURL, some (notFound aURL))]
    gs := [
      ⟨none, seedURL, 2, PC.returned, some ⟨"", [aURL, bURL], none⟩, 2⟩,
      ⟨some 0, aURL, 1, PC.exited, some ⟨"", [], some (notFound aURL)⟩, 0⟩,
      ⟨some 0, bURL, 1, PC.exited, some ⟨"", [], none⟩, 0⟩] }

/-- A fetcher with a cycle: `a -> [b]`, `b -> [a]`; any other URL is not found. -/
def cycleFetcher : Fetcher where
  Fetch := fun url =>
    if url = aURL then ⟨"", [bURL], none⟩
    else if url = bURL then ⟨"", [aURL], none⟩
    else ⟨"", [], some (notFound url)⟩

/-- A schedule that runs `Crawl(a, 3, cycleFetcher)` to completion. -/
def cycleSchedule : List Nat :=
  [0, 0, 0, 0, 0, 1, 1, 1, 1, 1, 2, 2, 1, 1, 0]

/-- The state reached by `cycleSchedule`. -/
def cycleFinal : State :=
  { fetched := [(aURL, none), (bURL, none)]
    calls := [aURL, bURL]
    writes := [(aURL, some Error.loading), (aURL, none), (bURL, some Error.loading),
      (bURL, none)]
    gs := [
      ⟨none, aURL, 3, PC.returned, some ⟨"", [bURL], none⟩, 1⟩,
      ⟨some 0, bURL, 2, PC.exited, some ⟨"", [aURL], none⟩, 1⟩,
      ⟨some 1, aURL, 1, PC.exited, none, 0⟩] }

/-- The state reached by `siblingSchedule` when the map initially holds `c -> nil`. -/
def revisitFinal : State :=
  { siblingFinal with
    fetched := [(cURL, none), (seedURL, none), (bURL, none), (aURL, some (notFound aURL))] }

/-! ## List and map lemmas -/

theorem mapGet_mapSet (m : VisitMap) (k k' : String) (v : Option Error) :
    mapGet (mapSet m k v) k' = if k = k' then some v else mapGet m k' := by
  induction m with
  | nil => simp [mapSet, mapGet]
  | cons e r ih =>
    obtain ⟨a, b⟩ := e
    by_cases h : a = k
    · subst h
      by_cases h' : a = k' <;> simp [mapSet, mapGet, h']
    · by_cases h' : k = k'
      · subst h'
        simp [mapSet, mapGet, h, ih]
      · by_cases h'' : a = k'
        · subst h''
          simp [mapSet, mapGet, h, h']
        · simp [mapSet, mapGet, h, h', h'', ih]

theorem get_set_cases {α : Type} {l : List α} {i j : Nat} {a x : α}
    (h : (l.set i a)[j]? = some x) : (j = i ∧ x = a) ∨ (j ≠ i ∧ l[j]? = some x) := by
  rw [List.getElem?_set] at h
  by_cases hij : i = j
  · subst hij
    left
    simp only [if_true] at h
    split at h
    · simp at h
      exact ⟨rfl, h.symm⟩
    · simp at h
  · right
    simp only [hij, if_false] at h
    exact ⟨fun e => hij e.symm, h⟩

theorem get_set_self {α : Type} {l : List α} {i : Nat} {a t : α}
    (h : l[i]? = some t) : (l.set i a)[i]? = some a := by
  have hi : i < l.length := by
    rcases Nat.lt_or_ge i l.length with h1 | h1
    · exact h1
    · rw [List.getElem?_eq_none h1] at h
      simp at h
  rw [List.getElem?_set]
  simp [hi]

theorem get_set_ne {α : Type} {l : List α} {i j : Nat} {a : α}
    (h : j ≠ i) : (l.set i a)[j]? = l[j]? := by
  rw [List.getElem?_set]
  have h' : ¬ i = j := fun e => h e.symm
  simp [h']

theorem get_lt {α : Type} {l : List α} {i : Nat} {t : α}
    (h : l[i]? = some t) : i < l.length := by
  rcases Nat.lt_or_ge i l.length with h1 | h1
  · exact h1
  · rw [List.getElem?_eq_none h1] at h
    simp at h

theorem get_append_cases {α : Type} {l : List α} {c x : α} {j : Nat}
    (h : (l ++ [c])[j]? = some x) : l[j]? = some x ∨ (j = l.length ∧ x = c) := by
  rcases Nat.lt_or_ge j l.length with h1 | h1
  · left
    rw [List.getElem?_append_left h1] at h
    exact h
  · right
    rw [List.getElem?_append_right h1] at h
    have h2 : j - l.length < 1 := by
      have := get_lt h
      simpa using this
    have h3 : j - l.length = 0 := by omega
    rw [h3] at h
    simp at h
    exact ⟨by omega, h.symm⟩

theorem get_append_old {α : Type} {l : List α} {c x : α} {j : Nat}
    (h : l[j]? = some x) : (l ++ [c])[j]? = some x := by
  rw [List.getElem?_append_left (get_lt h)]
  exact h

theorem filter_map_set {α β : Type} (q : α → Bool) (g : α → β) :
    ∀ (l : List α) (i : Nat) (t t' : α), l[i]? = some t → q t' = q t → g t' = g t →
      ((l.set i t').filter q).map g = (l.filter q).map g := by
  intro l
  induction l with
  | nil => intro i t t' h; simp at h
  | cons a r ih =>
    intro i t t' h hq hg
    cases i with
    | zero =>
      simp at h
      subst h
      simp only [List.set_cons_zero, List.filter_cons, hq]
      split <;> simp [hg]
    | succ n =>
      simp at h
      have := ih n t t' h hq hg
      simp only [List.set_cons_succ, List.filter_cons]
      split <;> simp [this]

theorem filter_length_set {α : Type} (q : α → Bool) :
    ∀ (l : List α) (i : Nat) (t t' : α), l[i]? = some t →
      ((l.set i t').filter q).length + (if q t then 1 else 0)
        = (l.filter q).length + (if q t' then 1 else 0) := by
  intro l
  induction l with
  | nil => intro i t t' h; simp at h
  | cons a r ih =>
    intro i t t' h
    cases i with
    | zero =>
      simp at h
      subst h
      simp only [List.set_cons_zero, List.filter_cons]
      by_cases h1 : q a = true <;> by_cases h2 : q t' = true <;> simp [h1, h2]
    | succ n =>
      simp at h
      have := ih n t t' h
      simp only [List.set_cons_succ, List.filter_cons]
      by_cases h1 : q a = true <;> simp [h1] <;> omega

theorem sum_map_set {α : Type} (w : α → Nat) :
    ∀ (l : List α) (i : Nat) (t t' : α), l[i]? = some t →
      ((l.set i t').map w).sum + w t = (l.map w).sum + w t' := by
  intro l
  induction l with
  | nil => intro i t t' h; simp at h
  | cons a r ih =>
    intro i t t' h
    cases i with
    | zero =>
      simp at h
      subst h
      simp only [List.set_cons_zero, List.map_cons, List.sum_cons]
      omega
    | succ n =>
      simp at h
      have := ih n t t' h
      simp only [List.set_cons_succ, List.map_cons, List.sum_cons]
      omega

theorem get_set_lt {α : Type} {l : List α} {i : Nat} {a : α}
    (h : i < l.length) : (l.set i a)[i]? = some a := by
  rw [List.getElem?_set]
  simp [h]

/-! ## The step function and the step relation -/

theorem step_rel {fetcher : Fetcher} {s s' : State} {i : Nat}
    (h : Crawl.step fetcher s i = some s') : StepRel fetcher s i s' := by
  unfold Crawl.step at h
  split at h
  · simp at h
  · rename_i t ht
    split at h
    · rename_i hpc
      split at h
      · rename_i hd
        simp at h
        subst h
        exact StepRel.skip t ht hpc (Or.inl hd)
      · rename_i hd
        split at h
        · rename_i v hv
          simp at h
          subst h
          exact StepRel.skip t ht hpc (Or.inr (by simp [hv]))
        · rename_i hv
          simp at h
          subst h
          exact StepRel.claim t ht hpc (by omega) hv
    · rename_i hpc
      simp at h
      subst h
      exact StepRel.fetch t ht hpc
    · rename_i hpc
      split at h
      · simp at h
      · rename_i r hr
        simp at h
        subst h
        by_cases he : r.err = none
        · simp only [he, ne_eq, not_true_eq_false, if_false]
          have := @StepRel.resolveOk fetcher s i t r ht hpc hr he
          simpa [he] using this
        · simp only [ne_eq, he, not_false_eq_true, if_true]
          exact StepRel.resolveErr t r ht hpc hr he
    · rename_i u rest hpc
      simp at h
      subst h
      exact StepRel.spawn t u rest ht hpc
    · rename_i hpc
      split at h
      · simp at h
      · rename_i r hr
        simp at h
        subst h
        exact StepRel.spawned t r ht hpc hr
    · simp at h
    · rename_i hpc
      simp at h
      subst h
      exact StepRel.finish t ht hpc
    · rename_i hpc
      split at h
      · simp at h
      · rename_i p hp
        split at h
        · simp at h
        · rename_i tp htp
          split at h
          · rename_i u rest hppc
            simp at h
            subst h
            exact StepRel.send t tp p u rest ht hpc hp htp hppc
          · simp at h
    · simp at h

/-! ## How a step changes the goroutine records -/

theorem step_threads {fetcher : Fetcher} {s s' : State} {i j : Nat} {t' : Goroutine}
    (h : StepRel fetcher s i s') (hj : s'.gs[j]? = some t') :
    (j ≠ i ∧ s.gs[j]? = some t') ∨ (∃ t, s.gs[j]? = some t ∧ Moves fetcher s.fetched t t') ∨
      (j = s.gs.length ∧ ∃ t u rest, s.gs[i]? = some t ∧ t.pc = PC.spawning (u :: rest) ∧
        t' = child i u t.depth) := by
  cases h with
  | skip t h hpc hc =>
    rcases get_set_cases hj with ⟨rfl, rfl⟩ | ⟨hne, hj⟩
    · exact Or.inr (Or.inl ⟨t, h, Moves.skip t hpc hc⟩)
    · exact Or.inl ⟨hne, hj⟩
  | claim t h hpc hd hm =>
    rcases get_set_cases hj with ⟨rfl, rfl⟩ | ⟨hne, hj⟩
    · exact Or.inr (Or.inl ⟨t, h, Moves.claim t hpc hd hm⟩)
    · exact Or.inl ⟨hne, hj⟩
  | fetch t h hpc =>
    rcases get_set_cases hj with ⟨rfl, rfl⟩ | ⟨hne, hj⟩
    · exact Or.inr (Or.inl ⟨t, h, Moves.fetch t hpc⟩)
    · exact Or.inl ⟨hne, hj⟩
  | resolveErr t r h hpc hr he =>
    rcases get_set_cases hj with ⟨rfl, rfl⟩ | ⟨hne, hj⟩
    · exact Or.inr (Or.inl ⟨t, h, Moves.resolveErr t r hpc hr he⟩)
    · exact Or.inl ⟨hne, hj⟩
  | resolveOk t r h hpc hr he =>
    rcases get_set_cases hj with ⟨rfl, rfl⟩ | ⟨hne, hj⟩
    · exact Or.inr (Or.inl ⟨t, h, Moves.resolveOk t r hpc hr he⟩)
    · exact Or.inl ⟨hne, hj⟩
  | spawn t u rest h hpc =>
    rcases get_append_cases hj with hj1 | ⟨hj2, rfl⟩
    · rcases get_set_cases hj1 with ⟨rfl, rfl⟩ | ⟨hne, hj3⟩
      · exact Or.inr (Or.inl ⟨t, h, Moves.spawn t u rest hpc⟩)
      · exact Or.inl ⟨hne, hj3⟩
    · refine Or.inr (Or.inr ⟨?_, t, u, rest, h, hpc, rfl⟩)
      simpa using hj2
  | spawned t r h hpc hr =>
    rcases get_set_cases hj with ⟨rfl, rfl⟩ | ⟨hne, hj⟩
    · exact Or.inr (Or.inl ⟨t, h, Moves.spawned t r hpc hr⟩)
    · exact Or.inl ⟨hne, hj⟩
  | finish t h hpc =>
    rcases get_set_cases hj with ⟨rfl, rfl⟩ | ⟨hne, hj⟩
    · exact Or.inr (Or.inl ⟨t, h, Moves.finish t hpc⟩)
    · exact Or.inl ⟨hne, hj⟩
  | send t tp p u rest h hpc hp hgp hppc =>
    rcases get_set_cases hj with ⟨rfl, rfl⟩ | ⟨hne, hj⟩
    · exact Or.inr (Or.inl ⟨t, h, Moves.send t hpc (by simp [hp])⟩)
    · rcases get_set_cases hj with ⟨rfl, rfl⟩ | ⟨_, hj⟩
      · exact Or.inr (Or.inl ⟨tp, hgp, Moves.recv tp u rest hppc⟩)
      · exact Or.inl ⟨hne, hj⟩

theorem moves_key {fetcher : Fetcher} {m : VisitMap} {t t' : Goroutine}
    (h : Moves fetcher m t t') :
    t'.parent = t.parent ∧ t'.url = t.url ∧ t'.depth = t.depth := by
  cases h <;> exact ⟨rfl, rfl, rfl⟩

/-- Every goroutine of the old state is still there, possibly moved. -/
theorem step_old {fetcher : Fetcher} {s s' : State} {i j : Nat} {t : Goroutine}
    (h : StepRel fetcher s i s') (hj : s.gs[j]? = some t) :
    s'.gs[j]? = some t ∨ ∃ t', s'.gs[j]? = some t' ∧ Moves fetcher s.fetched t t' := by
  cases h with
  | skip t0 h hpc hc =>
    by_cases e : j = i
    · subst e
      rw [hj] at h; cases h
      exact Or.inr ⟨_, get_set_self hj, Moves.skip t hpc hc⟩
    · exact Or.inl (by simpa [get_set_ne e] using hj)
  | claim t0 h hpc hd hm =>
    by_cases e : j = i
    · subst e
      rw [hj] at h; cases h
      exact Or.inr ⟨_, get_set_self hj, Moves.claim t hpc hd hm⟩
    · exact Or.inl (by simpa [get_set_ne e] using hj)
  | fetch t0 h hpc =>
    by_cases e : j = i
    · subst e
      rw [hj] at h; cases h
      exact Or.inr ⟨_, get_set_self hj, Moves.fetch t hpc⟩
    · exact Or.inl (by simpa [get_set_ne e] using hj)
  | resolveErr t0 r h hpc hr he =>
    by_cases e : j = i
    · subst e
      rw [hj] at h; cases h
      exact Or.inr ⟨_, get_set_self hj, Moves.resolveErr t r hpc hr he⟩
    · exact Or.inl (by simpa [get_set_ne e] using hj)
  | resolveOk t0 r h hpc hr he =>
    by_cases e : j = i
    · subst e
      rw [hj] at h; cases h
      exact Or.inr ⟨_, get_set_self hj, Moves.resolveOk t r hpc hr he⟩
    · exact Or.inl (by simpa [get_set_ne e] using hj)
  | spawn t0 u rest h hpc =>
    by_cases e : j = i
    · subst e
      rw [hj] at h; cases h
      exact Or.inr ⟨_, get_append_old (get_set_self hj), Moves.spawn t u rest hpc⟩
    · exact Or.inl (get_append_old (by simpa [get_set_ne e] using hj))
  | spawned t0 r h hpc hr =>
    by_cases e : j = i
    · subst e
      rw [hj] at h; cases h
      exact Or.inr ⟨_, get_set_self hj, Moves.spawned t r hpc hr⟩
    · exact Or.inl (by simpa [get_set_ne e] using hj)
  | finish t0 h hpc =>
    by_cases e : j = i
    · subst e
      rw [hj] at h; cases h
      exact Or.inr ⟨_, get_set_self hj, Moves.finish t hpc⟩
    · exact Or.inl (by simpa [get_set_ne e] using hj)
  | send t0 tp p u rest h hpc hp hgp hppc =>
    by_cases e : j = i
    · subst e
      rw [hj] at h; cases h
      refine Or.inr ⟨_, get_set_lt ?_, Moves.send t hpc (by simp [hp])⟩
      simpa using get_lt hj
    · by_cases e' : j = p
      · subst e'
        rw [hj] at hgp; cases hgp
        refine Or.inr ⟨_, ?_, Moves.recv t u rest hppc⟩
        rw [get_set_ne e]
        exact get_set_self hj
      · exact Or.inl (by simpa [get_set_ne e, get_set_ne e'] using hj)

theorem step_actor {fetcher : Fetcher} {s s' : State} {i : Nat}
    (h : StepRel fetcher s i s') : ∃ t, s.gs[i]? = some t := by
  cases h <;> exact ⟨_, by assumption⟩

/-! ## Invariants of a single goroutine record -/

theorem localOK_moves {fetcher : Fetcher} {m : VisitMap} {t t' : Goroutine}
    (h : Moves fetcher m t t') (ht : LocalOK fetcher t) : LocalOK fetcher t' := by
  obtain ⟨h1, h2⟩ := ht
  cases h with
  | skip hpc hc => exact ⟨h1, trivial⟩
  | claim hpc hd hm =>
    rw [hpc] at h2
    exact ⟨h1, h2.1, h2.2, hd⟩
  | fetch hpc =>
    rw [hpc] at h2
    refine ⟨?_, rfl, h2.2.1, h2.2.2⟩
    intro r hr
    simp at hr
    exact hr.symm
  | resolveErr r hpc hr he => exact ⟨h1, trivial⟩
  | resolveOk r hpc hr he =>
    rw [hpc] at h2
    have hr' := h1 r hr
    subst hr'
    exact ⟨h1, h2.1, h2.2.1, h2.2.2, he, [], rfl⟩
  | spawn u rest hpc =>
    rw [hpc] at h2
    obtain ⟨a, b, c, d, pre, e⟩ := h2
    exact ⟨h1, a, b, c, d, pre ++ [u], by simpa using e⟩
  | spawned r hpc hr =>
    rw [hpc] at h2
    obtain ⟨a, b, c, d, _⟩ := h2
    exact ⟨h1, a, c, d⟩
  | finish hpc => exact ⟨h1, trivial⟩
  | send hpc hp => exact ⟨h1, hp⟩
  | recv u rest hpc =>
    rw [hpc] at h2
    exact ⟨h1, h2⟩

theorem localOK_child (fetcher : Fetcher) (p : Nat) (u : String) (d : Int) :
    LocalOK fetcher (child p u d) :=
  ⟨by intro r hr; simp [child] at hr, rfl, rfl⟩

theorem reachWithin_mono_succ (fetcher : Fetcher) (n : Nat) (src u : String)
    (h : u ∈ reachWithin fetcher n src) : u ∈ reachWithin fetcher (n + 1) src := by
  simp only [reachWithin, List.mem_append]
  exact Or.inl h

theorem reachWithin_mono (fetcher : Fetcher) {n m : Nat} (hnm : n ≤ m) (src u : String)
    (h : u ∈ reachWithin fetcher n src) : u ∈ reachWithin fetcher m src := by
  induction hnm with
  | refl => exact h
  | step _ ih => exact reachWithin_mono_succ fetcher _ src u ih

theorem reachWithin_link (fetcher : Fetcher) (n : Nat) (src v u : String)
    (hv : v ∈ reachWithin fetcher n src) (he : (fetcher.Fetch v).err = none)
    (hu : u ∈ (fetcher.Fetch v).urls) : u ∈ reachWithin fetcher (n + 1) src := by
  simp only [reachWithin, List.mem_append, List.mem_flatMap]
  exact Or.inr ⟨v, hv, by simpa [he] using hu⟩

theorem reachOK_moves {fetcher : Fetcher} {m : VisitMap} {t t' : Goroutine}
    {url0 : String} {depth0 : Int}
    (h : Moves fetcher m t t') (ht : ReachOK fetcher url0 depth0 t) :
    ReachOK fetcher url0 depth0 t' := by
  obtain ⟨_, h2, h3⟩ := moves_key h
  unfold ReachOK
  rw [h2, h3]
  exact ht

theorem reachOK_child {fetcher : Fetcher} {t : Goroutine} {url0 : String} {depth0 : Int}
    {u : String} {rest : List String} (p : Nat)
    (hl : LocalOK fetcher t) (ht : ReachOK fetcher url0 depth0 t)
    (hpc : t.pc = PC.spawning (u :: rest)) :
    ReachOK fetcher url0 depth0 (child p u t.depth) := by
  obtain ⟨_, h2⟩ := hl
  rw [hpc] at h2
  obtain ⟨_, _, hd, he, pre, hpre⟩ := h2
  obtain ⟨r1, r2⟩ := ht
  have hu : u ∈ (fetcher.Fetch t.url).urls := by
    rw [← hpre]
    simp
  refine ⟨by simp [child]; omega, ?_⟩
  have e : (depth0 - (child p u t.depth).depth).toNat = (depth0 - t.depth).toNat + 1 := by
    simp [child]
    omega
  rw [e]
  exact reachWithin_link fetcher _ url0 t.url u r2 he hu

/-! ## Preservation of the invariant: records, tree, reachability, coverage -/

theorem loc_step {fetcher : Fetcher} {s s' : State} {i : Nat}
    (h : StepRel fetcher s i s') (hl : ∀ (j : Nat) (t : Goroutine), s.gs[j]? = some t → LocalOK fetcher t) :
    ∀ (j : Nat) (t : Goroutine), s'.gs[j]? = some t → LocalOK fetcher t := by
  intro j t' hj
  rcases step_threads h hj with ⟨_, h1⟩ | ⟨t, h1, hm⟩ | ⟨_, t, u, rest, _, _, rfl⟩
  · exact hl j t' h1
  · exact localOK_moves hm (hl j t h1)
  · exact localOK_child fetcher i u t.depth

theorem rch_step {fetcher : Fetcher} {s s' : State} {i : Nat} {url0 : String} {depth0 : Int}
    (h : StepRel fetcher s i s') (hl : ∀ (j : Nat) (t : Goroutine), s.gs[j]? = some t → LocalOK fetcher t)
    (hr : ∀ (j : Nat) (t : Goroutine), s.gs[j]? = some t → ReachOK fetcher url0 depth0 t) :
    ∀ (j : Nat) (t : Goroutine), s'.gs[j]? = some t → ReachOK fetcher url0 depth0 t := by
  intro j t' hj
  rcases step_threads h hj with ⟨_, h1⟩ | ⟨t, h1, hm⟩ | ⟨_, t, u, rest, h1, hpc, rfl⟩
  · exact hr j t' h1
  · exact reachOK_moves hm (hr j t h1)
  · exact reachOK_child i (hl i t h1) (hr i t h1) hpc

theorem par_step {fetcher : Fetcher} {s s' : State} {i : Nat}
    (h : StepRel fetcher s i s') (hp : ∀ (j : Nat) (t : Goroutine), s.gs[j]? = some t → ParOK s j t) :
    ∀ (j : Nat) (t : Goroutine), s'.gs[j]? = some t → ParOK s' j t := by
  have key : ∀ (j : Nat) (t : Goroutine), s.gs[j]? = some t → ∀ t', t'.parent = t.parent → t'.depth = t.depth →
      ParOK s' j t' := by
    intro j t hj t' e1 e2
    have := hp j t hj
    unfold ParOK at this ⊢
    rw [e1]
    cases hpar : t.parent with
    | none => simpa [hpar] using this
    | some p =>
      rw [hpar] at this
      obtain ⟨hlt, tp, htp, hd⟩ := this
      refine ⟨hlt, ?_⟩
      rcases step_old h htp with h2 | ⟨tp', h2, hm⟩
      · exact ⟨tp, h2, by rw [e2]; exact hd⟩
      · exact ⟨tp', h2, by rw [e2, (moves_key hm).2.2]; exact hd⟩
  intro j t' hj
  rcases step_threads h hj with ⟨_, h1⟩ | ⟨t, h1, hm⟩ | ⟨hlen, t, u, rest, h1, hpc, rfl⟩
  · exact key j t' h1 t' rfl rfl
  · exact key j t h1 t' (moves_key hm).1 (moves_key hm).2.2
  · unfold ParOK
    simp only [child]
    refine ⟨by rw [hlen]; exact get_lt h1, ?_⟩
    rcases step_old h h1 with h2 | ⟨tp', h2, hm⟩
    · exact ⟨t, h2, rfl⟩
    · exact ⟨tp', h2, by rw [(moves_key hm).2.2]⟩

theorem fetched_grows {fetcher : Fetcher} {s s' : State} {i : Nat}
    (h : StepRel fetcher s i s') (k : String) (hk : mapGet s.fetched k ≠ none) :
    mapGet s'.fetched k ≠ none := by
  cases h <;> first
    | exact hk
    | (simp only [mapGet_mapSet]; split <;> simp [hk])

theorem cov_step {fetcher : Fetcher} {s s' : State} {i : Nat}
    (h : StepRel fetcher s i s') (hc : ∀ (j : Nat) (t : Goroutine), s.gs[j]? = some t → CoverOK s t) :
    ∀ (j : Nat) (t : Goroutine), s'.gs[j]? = some t → CoverOK s' t := by
  have old : ∀ (j : Nat) (t : Goroutine), s.gs[j]? = some t → ∀ t', t'.url = t.url → t'.depth = t.depth →
      t.pc ≠ PC.entry → CoverOK s' t' := by
    intro j t hj t' e1 e2 hne _ hd
    rw [e1]
    rw [e2] at hd
    exact fetched_grows h _ (hc j t hj hne hd)
  intro j t' hj
  cases h with
  | skip t h hpc hc' =>
    rcases get_set_cases hj with ⟨rfl, rfl⟩ | ⟨_, hj⟩
    · intro _ hd
      rcases hc' with h1 | h1
      · simp at hd; omega
      · exact h1
    · exact hc j t' hj
  | claim t h hpc hd hm =>
    rcases get_set_cases hj with ⟨rfl, rfl⟩ | ⟨_, hj⟩
    · intro _ _
      simp [mapGet_mapSet]
    · intro hne hd'
      simp only [mapGet_mapSet]
      split
      · simp
      · exact hc j t' hj hne hd'
  | fetch t h hpc =>
    rcases get_set_cases hj with ⟨rfl, rfl⟩ | ⟨_, hj⟩
    · intro _ hd'
      exact hc j t h (by simp [hpc]) hd'
    · exact hc j t' hj
  | resolveErr t r h hpc hr he =>
    rcases get_set_cases hj with ⟨rfl, rfl⟩ | ⟨_, hj⟩
    · intro _ _
      simp [mapGet_mapSet]
    · intro hne hd'
      simp only [mapGet_mapSet]
      split
      · simp
      · exact hc j t' hj hne hd'
  | resolveOk t r h hpc hr he =>
    rcases get_set_cases hj with ⟨rfl, rfl⟩ | ⟨_, hj⟩
    · intro _ _
      simp [mapGet_mapSet]
    · intro hne hd'
      simp only [mapGet_mapSet]
      split
      · simp
      · exact hc j t' hj hne hd'
  | spawn t u rest h hpc =>
    rcases get_append_cases hj with hj1 | ⟨_, rfl⟩
    · rcases get_set_cases hj1 with ⟨rfl, rfl⟩ | ⟨_, hj3⟩
      · intro _ hd'
        exact hc j t h (by simp [hpc]) hd'
      · exact hc j t' hj3
    · intro hne
      simp [child] at hne
  | spawned t r h hpc hr =>
    rcases get_set_cases hj with ⟨rfl, rfl⟩ | ⟨_, hj⟩
    · intro _ hd'
      exact hc j t h (by simp [hpc]) hd'
    · exact hc j t' hj
  | finish t h hpc =>
    rcases get_set_cases hj with ⟨rfl, rfl⟩ | ⟨_, hj⟩
    · intro _ hd'
      exact hc j t h (by simp [hpc]) hd'
    · exact hc j t' hj
  | send t tp p u rest h hpc hp hgp hppc =>
    rcases get_set_cases hj with ⟨rfl, rfl⟩ | ⟨_, hj⟩
    · intro _ hd'
      exact hc j t h (by simp [hpc]) hd'
    · rcases get_set_cases hj with ⟨rfl, rfl⟩ | ⟨_, hj⟩
      · intro _ hd'
        exact hc j tp hgp (by simp [hppc]) hd'
      · exact hc j t' hj

/-! ## Children and completion signals -/

theorem kidsKey_set {gs : List Goroutine} {i : Nat} {t : Goroutine} (t' : Goroutine) (p : Nat)
    (h : gs[i]? = some t) (e1 : t'.parent = t.parent) (e2 : t'.url = t.url)
    (e3 : t'.depth = t.depth) : kidsKey (gs.set i t') p = kidsKey gs p := by
  unfold kidsKey
  exact filter_map_set _ _ gs i t t' h (by simp [e1]) (by simp [e2, e3])

theorem kidsKey_append (gs : List Goroutine) (c : Goroutine) (p : Nat) :
    kidsKey (gs ++ [c]) p
      = kidsKey gs p ++ (if c.parent = some p then [(c.url, c.depth)] else []) := by
  unfold kidsKey
  by_cases h : c.parent = some p <;> simp [List.filter_append, List.filter_cons, h]

theorem alive_set {gs : List Goroutine} {i : Nat} {t : Goroutine} (t' : Goroutine) (p : Nat)
    (h : gs[i]? = some t) (e1 : t'.parent = t.parent)
    (e2 : t'.pc = PC.exited ↔ t.pc = PC.exited) : aliveOf (gs.set i t') p = aliveOf gs p := by
  unfold aliveOf
  have := filter_length_set (fun c : Goroutine => decide (c.parent = some p ∧ c.pc ≠ PC.exited))
    gs i t t' h
  have e : decide (t'.parent = some p ∧ t'.pc ≠ PC.exited)
      = decide (t.parent = some p ∧ t.pc ≠ PC.exited) := by
    rw [e1]
    by_cases h1 : t.pc = PC.exited
    · simp [h1, e2.2 h1]
    · have h2 : t'.pc ≠ PC.exited := fun x => h1 (e2.1 x)
      simp [h1, h2]
  simp only [e] at this
  omega

theorem alive_set_exit {gs : List Goroutine} {i : Nat} {t : Goroutine} (t' : Goroutine) (p : Nat)
    (h : gs[i]? = some t) (e1 : t'.parent = t.parent) (e2 : t.pc ≠ PC.exited)
    (e3 : t'.pc = PC.exited) :
    aliveOf (gs.set i t') p + (if t.parent = some p then 1 else 0) = aliveOf gs p := by
  unfold aliveOf
  have := filter_length_set (fun c : Goroutine => decide (c.parent = some p ∧ c.pc ≠ PC.exited))
    gs i t t' h
  by_cases h1 : t.parent = some p
  · simp [e1, h1, e2, e3] at this ⊢
    omega
  · simp [e1, h1, e2, e3] at this ⊢
    omega

theorem alive_append (gs : List Goroutine) (c : Goroutine) (p : Nat) :
    aliveOf (gs ++ [c]) p
      = aliveOf gs p + (if c.parent = some p ∧ c.pc ≠ PC.exited then 1 else 0) := by
  unfold aliveOf
  by_cases h : c.parent = some p ∧ c.pc ≠ PC.exited
  · simp [List.filter_append, List.filter_cons, h]
  · rw [if_neg h]
    simp only [List.filter_append, List.filter_cons, List.filter_nil, List.length_append]
    simp [h]

/-- No goroutine has a parent that does not exist yet. -/
theorem kidsKey_fresh {s : State} (hp : ∀ (j : Nat) (t : Goroutine), s.gs[j]? = some t → ParOK s j t)
    (p : Nat) (h : s.gs.length ≤ p) : kidsKey s.gs p = [] ∧ aliveOf s.gs p = 0 := by
  have hno : ∀ c ∈ s.gs, c.parent ≠ some p := by
    intro c hc e
    obtain ⟨j, hj⟩ := List.getElem?_of_mem hc
    have h1 := hp j c hj
    unfold ParOK at h1
    rw [e] at h1
    have := get_lt hj
    omega
  constructor
  · unfold kidsKey
    rw [List.filter_eq_nil_iff.2]
    · rfl
    · intro c hc
      simpa using hno c hc
  · unfold aliveOf
    rw [List.filter_eq_nil_iff.2]
    · rfl
    · intro c hc
      simp [hno c hc]

theorem kc_simple {fetcher : Fetcher} {m : VisitMap} {t t' : Goroutine}
    {K : List (String × Int)} {a : Nat}
    (h : Moves fetcher m t t') (hl : LocalOK fetcher t) (hk : KC t K a)
    (h1 : ∀ u rest, t.pc ≠ PC.spawning (u :: rest))
    (h2 : ∀ u rest, t.pc ≠ PC.waiting (u :: rest)) : KC t' K a := by
  obtain ⟨k1, k2, k3, k4⟩ := hk
  obtain ⟨l1, l2⟩ := hl
  cases h with
  | skip hpc hc =>
    rw [hpc] at l2
    simp only [pending, target, hpc] at k1
    refine ⟨?_, k2, ?_, ?_⟩
    · simp only [pending, target, l2.1]
      exact k1
    · intro todo e; simp at e
    · intro _
      have : K = [] := by simpa using k1
      rw [this, l2.2] at k2
      simpa using k2
  | claim hpc hd hm =>
    simp only [pending, target, hpc] at k1
    refine ⟨?_, k2, ?_, ?_⟩
    · simp only [pending, target]
      exact k1
    · intro todo e; simp at e
    · intro e; simp at e
  | fetch hpc =>
    simp only [pending, target, hpc] at k1
    refine ⟨?_, k2, ?_, ?_⟩
    · simp only [pending, target]
      exact k1
    · intro todo e; simp at e
    · intro e; simp at e
  | resolveErr r hpc hr he =>
    rw [hpc] at l2
    simp only [pending, target, hpc] at k1
    refine ⟨?_, k2, ?_, ?_⟩
    · simp only [pending, target, hr, he, if_false]
      exact k1
    · intro todo e; simp at e
    · intro _
      have : K = [] := by simpa using k1
      rw [this, l2.2.1] at k2
      simpa using k2
  | resolveOk r hpc hr he =>
    simp only [pending, target, hpc] at k1
    have hK : K = [] := by simpa using k1
    refine ⟨?_, k2, ?_, ?_⟩
    · simp only [pending, target, hr, he, if_true, hK]
      simp
    · intro todo e; simp at e
    · intro e; simp at e
  | spawn u rest hpc => exact absurd hpc (h1 u rest)
  | spawned r hpc hr =>
    rw [hpc] at l2
    simp only [pending, target, hpc] at k1
    have hr' : r = fetcher.Fetch t.url := l1 r hr
    subst hr'
    refine ⟨?_, k2, ?_, ?_⟩
    · simp only [pending, target]
      exact k1
    · intro todo e
      simp at e
      subst e
      have he : (fetcher.Fetch t.url).err = none := l2.2.2.2.1
      simp only [hr, he, if_true, List.map_nil, List.append_nil] at k1
      have := congrArg List.length k1
      simp at this
      rw [l2.2.1] at k2
      omega
    · intro e; simp at e
  | finish hpc =>
    simp only [pending, target, hpc] at k1
    refine ⟨?_, k2, ?_, ?_⟩
    · simp only [pending, target]
      exact k1
    · intro todo e; simp at e
    · intro _
      simpa using k3 [] hpc
  | send hpc hp =>
    simp only [pending, target, hpc] at k1
    refine ⟨?_, k2, ?_, ?_⟩
    · simp only [pending, target]
      exact k1
    · intro todo e; simp at e
    · intro _
      exact k4 (Or.inl hpc)
  | recv u rest hpc => exact absurd hpc (h2 u rest)

theorem kc_spawn {fetcher : Fetcher} {t : Goroutine} {K : List (String × Int)} {a : Nat}
    {u : String} {rest : List String}
    (hl : LocalOK fetcher t) (hk : KC t K a) (hpc : t.pc = PC.spawning (u :: rest)) :
    KC { t with pc := PC.spawning rest } (K ++ [(u, t.depth - 1)]) (a + 1) := by
  obtain ⟨k1, k2, k3, k4⟩ := hk
  obtain ⟨l1, l2⟩ := hl
  rw [hpc] at l2
  simp only [pending, target, hpc] at k1
  refine ⟨?_, ?_, ?_, ?_⟩
  · simp only [pending, target]
    rw [← k1]
    simp
  · simp
    omega
  · intro todo e; simp at e
  · intro e; simp at e

theorem kc_recv {t : Goroutine} {K : List (String × Int)} {a : Nat}
    {u : String} {rest : List String}
    (hk : KC t K a) (hpc : t.pc = PC.waiting (u :: rest)) :
    ∃ a', a = a' + 1 ∧
      KC { t with pc := PC.waiting rest, recvd := t.recvd + 1 } K a' := by
  obtain ⟨k1, k2, k3, k4⟩ := hk
  have ha := k3 _ hpc
  simp at ha
  refine ⟨rest.length, ha, ?_, ?_, ?_, ?_⟩
  · simp only [pending, target, hpc] at k1
    simp only [pending, target]
    exact k1
  · simp
    omega
  · intro todo e
    simp at e
    rw [e]
  · intro e; simp at e

theorem kc_child (p : Nat) (u : String) (d : Int) : KC (child p u d) [] 0 := by
  refine ⟨by simp [pending, target, child], by simp [child], ?_, ?_⟩
  · intro todo e; simp [child] at e
  · intro _; rfl

theorem kc_simple_step {fetcher : Fetcher} {s : State} {i : Nat} {t t' : Goroutine}
    (h : s.gs[i]? = some t) (hm : Moves fetcher s.fetched t t')
    (h1 : ∀ u rest, t.pc ≠ PC.spawning (u :: rest))
    (h2 : ∀ u rest, t.pc ≠ PC.waiting (u :: rest))
    (e : t'.pc = PC.exited ↔ t.pc = PC.exited)
    (hl : ∀ (j : Nat) (t : Goroutine), s.gs[j]? = some t → LocalOK fetcher t)
    (hk : ∀ (j : Nat) (t : Goroutine), s.gs[j]? = some t → KC t (kidsKey s.gs j) (aliveOf s.gs j)) :
    ∀ (j : Nat) (tj : Goroutine), (s.gs.set i t')[j]? = some tj →
      KC tj (kidsKey (s.gs.set i t') j) (aliveOf (s.gs.set i t') j) := by
  intro j tj hj
  obtain ⟨m1, m2, m3⟩ := moves_key hm
  rw [kidsKey_set t' j h m1 m2 m3, alive_set t' j h m1 e]
  rcases get_set_cases hj with ⟨rfl, rfl⟩ | ⟨_, hj⟩
  · exact kc_simple hm (hl _ _ h) (hk _ _ h) h1 h2
  · exact hk j tj hj

theorem kc_step {fetcher : Fetcher} {s s' : State} {i : Nat}
    (h : StepRel fetcher s i s')
    (hl : ∀ (j : Nat) (t : Goroutine), s.gs[j]? = some t → LocalOK fetcher t)
    (hp : ∀ (j : Nat) (t : Goroutine), s.gs[j]? = some t → ParOK s j t)
    (hk : ∀ (j : Nat) (t : Goroutine), s.gs[j]? = some t → KC t (kidsKey s.gs j) (aliveOf s.gs j)) :
    ∀ (j : Nat) (t : Goroutine), s'.gs[j]? = some t →
      KC t (kidsKey s'.gs j) (aliveOf s'.gs j) := by
  cases h with
  | skip t h hpc hc =>
    exact kc_simple_step h (Moves.skip t hpc hc) (by simp [hpc]) (by simp [hpc])
      (by simp [hpc]) hl hk
  | claim t h hpc hd hm =>
    exact kc_simple_step h (Moves.claim t hpc hd hm) (by simp [hpc]) (by simp [hpc])
      (by simp [hpc]) hl hk
  | fetch t h hpc =>
    exact kc_simple_step h (Moves.fetch t hpc) (by simp [hpc]) (by simp [hpc])
      (by simp [hpc]) hl hk
  | resolveErr t r h hpc hr he =>
    exact kc_simple_step h (Moves.resolveErr t r hpc hr he) (by simp [hpc]) (by simp [hpc])
      (by simp [hpc]) hl hk
  | resolveOk t r h hpc hr he =>
    exact kc_simple_step h (Moves.resolveOk t r hpc hr he) (by simp [hpc]) (by simp [hpc])
      (by simp [hpc]) hl hk
  | spawned t r h hpc hr =>
    exact kc_simple_step h (Moves.spawned t r hpc hr) (by simp [hpc]) (by simp [hpc])
      (by simp [hpc]) hl hk
  | finish t h hpc =>
    exact kc_simple_step h (Moves.finish t hpc) (by simp [hpc]) (by simp [hpc])
      (by simp [hpc]) hl hk
  | spawn t u rest h hpc =>
    intro j tj hj
    simp only [kidsKey_append, alive_append]
    rw [kidsKey_set { t with pc := PC.spawning rest } j h rfl rfl rfl,
      alive_set { t with pc := PC.spawning rest } j h rfl (by simp [hpc])]
    simp only [child]
    rcases get_append_cases hj with hj1 | ⟨hj2, rfl⟩
    · rcases get_set_cases hj1 with ⟨rfl, rfl⟩ | ⟨hne, hj3⟩
      · simpa using kc_spawn (hl _ _ h) (hk _ _ h) hpc
      · have hne' : ¬ i = j := fun e => hne e.symm
        simpa [hne'] using hk j tj hj3
    · have hlen : j = s.gs.length := by simpa using hj2
      have hij : ¬ i = j := by
        have := get_lt h
        omega
      obtain ⟨f1, f2⟩ := kidsKey_fresh hp j (by omega)
      rw [f1, f2]
      simpa [hij, child] using kc_child i u t.depth
  | send t tp p u rest h hpc hp' hgp hppc =>
    intro j tj hj
    have hip : i ≠ p := by
      intro e
      subst e
      rw [h] at hgp
      cases hgp
      rw [hpc] at hppc
      cases hppc
    have h' : (s.gs.set p { tp with pc := PC.waiting rest, recvd := tp.recvd + 1 })[i]? = some t := by
      rw [get_set_ne hip]
      exact h
    have ea := alive_set_exit { t with pc := PC.exited } j h' rfl (by simp [hpc]) rfl
    rw [alive_set { tp with pc := PC.waiting rest, recvd := tp.recvd + 1 } j hgp rfl
      (by simp [hppc])] at ea
    have e0 : (if t.parent = some j then 1 else 0) = (if p = j then 1 else 0) := by
      rw [hp']
      simp
    rw [e0] at ea
    have ek : kidsKey (List.set (s.gs.set p { tp with pc := PC.waiting rest, recvd := tp.recvd + 1 })
        i { t with pc := PC.exited }) j = kidsKey s.gs j := by
      rw [kidsKey_set { t with pc := PC.exited } j h' rfl rfl rfl,
        kidsKey_set { tp with pc := PC.waiting rest, recvd := tp.recvd + 1 } j hgp
          rfl rfl rfl]
    show KC tj (kidsKey (List.set (s.gs.set p { tp with pc := PC.waiting rest, recvd := tp.recvd + 1 })
        i { t with pc := PC.exited }) j) (aliveOf (List.set (s.gs.set p { tp with pc := PC.waiting rest, recvd := tp.recvd + 1 })
        i { t with pc := PC.exited }) j)
    rw [ek]
    rcases get_set_cases hj with ⟨rfl, rfl⟩ | ⟨hne, hj1⟩
    · have hpj : ¬ p = j := fun e => hip e.symm
      rw [if_neg hpj] at ea
      rw [Nat.add_zero] at ea
      rw [ea]
      exact kc_simple (@Moves.send fetcher s.fetched t hpc (by simp [hp']))
        (hl _ _ h) (hk _ _ h) (by simp [hpc]) (by simp [hpc])
    · rcases get_set_cases hj1 with ⟨rfl, rfl⟩ | ⟨hne2, hj2⟩
      · rw [if_pos rfl] at ea
        obtain ⟨a', e1, e2⟩ := kc_recv (hk _ _ hgp) hppc
        have : aliveOf (List.set (s.gs.set j { tp with pc := PC.waiting rest, recvd := tp.recvd + 1 })
            i { t with pc := PC.exited }) j = a' := by omega
        rw [this]
        exact e2
      · have hpj : ¬ p = j := fun e => hne2 e.symm
        rw [if_neg hpj] at ea
        rw [Nat.add_zero] at ea
        rw [ea]
        exact hk j tj hj2

/-! ## The life cycle of a key -/

theorem holds_set_iff {gs : List Goroutine} {i : Nat} {t : Goroutine} (t' : Goroutine)
    (h : gs[i]? = some t) (j : Nat) (k : String) (b : Bool) :
    Holds (gs.set i t') j k b ↔
      (j = i ∧ t'.holds = some (k, b)) ∨ (j ≠ i ∧ Holds gs j k b) := by
  constructor
  · rintro ⟨x, hx, hh⟩
    rcases get_set_cases hx with ⟨rfl, rfl⟩ | ⟨hne, hx'⟩
    · exact Or.inl ⟨rfl, hh⟩
    · exact Or.inr ⟨hne, x, hx', hh⟩
  · rintro (⟨rfl, hh⟩ | ⟨hne, x, hx, hh⟩)
    · exact ⟨t', get_set_self h, hh⟩
    · exact ⟨x, by rw [get_set_ne hne]; exact hx, hh⟩

theorem holds_set_other {gs : List Goroutine} {i : Nat} {t : Goroutine} (t' : Goroutine)
    (h : gs[i]? = some t) (k : String)
    (h1 : ∀ b, t.holds ≠ some (k, b)) (h2 : ∀ b, t'.holds ≠ some (k, b)) (j : Nat) (b : Bool) :
    Holds (gs.set i t') j k b ↔ Holds gs j k b := by
  rw [holds_set_iff t' h]
  constructor
  · rintro (⟨_, hh⟩ | ⟨_, hh⟩)
    · exact absurd hh (h2 b)
    · exact hh
  · intro hh
    right
    refine ⟨?_, hh⟩
    rintro rfl
    obtain ⟨x, hx, hh'⟩ := hh
    rw [h] at hx
    cases hx
    exact h1 b hh'

theorem holds_append {gs : List Goroutine} (c : Goroutine) (hc : c.holds = none)
    (j : Nat) (k : String) (b : Bool) : Holds (gs ++ [c]) j k b ↔ Holds gs j k b := by
  constructor
  · rintro ⟨x, hx, hh⟩
    rcases get_append_cases hx with hx' | ⟨_, rfl⟩
    · exact ⟨x, hx', hh⟩
    · rw [hc] at hh
      cases hh
  · rintro ⟨x, hx, hh⟩
    exact ⟨x, get_append_old hx, hh⟩

theorem keyInv_congr {fetcher : Fetcher} {s s' : State} {k : String}
    (hh : ∀ j b, Holds s'.gs j k b ↔ Holds s.gs j k b)
    (hw : s'.writesTo k = s.writesTo k) (hc : k ∈ s'.calls ↔ k ∈ s.calls)
    (h : KeyInv fetcher s k) : KeyInv fetcher s' k := by
  unfold KeyInv at h ⊢
  simp only [hh, hw, hc]
  exact h

theorem writesTo_append {s s' : State} {u : String} {v : Option Error}
    (h : s'.writes = s.writes ++ [(u, v)]) (k : String) :
    s'.writesTo k = s.writesTo k ++ (if u = k then [v] else []) := by
  unfold State.writesTo
  rw [h]
  by_cases h : u = k <;> simp [List.filter_append, List.filter_cons, h]

theorem writesTo_same {s s' : State} (h : s'.writes = s.writes) (k : String) :
    s'.writesTo k = s.writesTo k := by
  unfold State.writesTo
  rw [h]

theorem holds_unique {gs : List Goroutine} {j : Nat} {k : String} {b b' : Bool}
    (h1 : Holds gs j k b) (h2 : Holds gs j k b') : b = b' := by
  obtain ⟨x, hx, hh⟩ := h1
  obtain ⟨y, hy, hh'⟩ := h2
  rw [hx] at hy
  cases hy
  rw [hh] at hh'
  simpa using hh'

theorem key_claim {fetcher : Fetcher} {s s' : State} {i : Nat} {t : Goroutine}
    (h : s.gs[i]? = some t) (hpc : t.pc = PC.entry)
    (hgs : s'.gs = s.gs.set i { t with pc := PC.claimed })
    (hw : s'.writes = s.writes ++ [(t.url, some Error.loading)])
    (hc : s'.calls = s.calls) (hfresh : s.writesTo t.url = [])
    (hk : ∀ k, KeyInv fetcher s k) : ∀ k, KeyInv fetcher s' k := by
  intro k
  have hold : t.holds = none := by simp [Goroutine.holds, hpc]
  by_cases e : t.url = k
  · subst e
    have hw' := writesTo_append hw t.url
    rw [hfresh] at hw'
    simp only [if_true, List.nil_append] at hw'
    rcases hk t.url with ⟨_, c, n⟩ | ⟨w, _⟩ | ⟨w, _⟩ | ⟨w, _⟩
    · right; left
      refine ⟨hw', by rw [hc]; exact c, i, ?_, ?_⟩
      · rw [hgs, holds_set_iff _ h]
        exact Or.inl ⟨rfl, by simp [Goroutine.holds]⟩
      · intro j' b hj'
        rw [hgs, holds_set_iff _ h] at hj'
        rcases hj' with ⟨e, _⟩ | ⟨_, hh⟩
        · exact e
        · exact absurd hh (n j' b)
    · rw [hfresh] at w; cases w
    · rw [hfresh] at w; cases w
    · rw [hfresh] at w; cases w
  · refine keyInv_congr ?_ ?_ ?_ (hk k)
    · intro j b
      rw [hgs]
      apply holds_set_other _ h
      · intro b; simp [hold]
      · intro b; simp [Goroutine.holds, e]
    · rw [writesTo_append hw k]
      simp [e]
    · rw [hc]

theorem key_fetch {fetcher : Fetcher} {s s' : State} {i : Nat} {t t' : Goroutine}
    (h : s.gs[i]? = some t) (hpc : t.pc = PC.claimed)
    (hgs : s'.gs = s.gs.set i t') (ht' : t'.holds = some (t.url, true))
    (hw : s'.writes = s.writes) (hc : s'.calls = s.calls ++ [t.url])
    (hk : ∀ k, KeyInv fetcher s k) : ∀ k, KeyInv fetcher s' k := by
  intro k
  have hold : t.holds = some (t.url, false) := by simp [Goroutine.holds, hpc]
  have hi : Holds s.gs i t.url false := ⟨t, h, hold⟩
  by_cases e : t.url = k
  · subst e
    rcases hk t.url with ⟨_, _, n⟩ | ⟨w, c, j, hj, uq⟩ | ⟨w, c, j, hj, uq⟩ | ⟨_, _, n⟩
    · exact absurd hi (n i false)
    · have hij : i = j := uq i false hi
      subst hij
      right; right; left
      refine ⟨by rw [writesTo_same hw]; exact w, by rw [hc]; simp, i, ?_, ?_⟩
      · rw [hgs, holds_set_iff _ h]
        exact Or.inl ⟨rfl, ht'⟩
      · intro j' b hj'
        rw [hgs, holds_set_iff _ h] at hj'
        rcases hj' with ⟨e, _⟩ | ⟨_, hh⟩
        · exact e
        · exact uq j' b hh
    · have hij : i = j := uq i false hi
      subst hij
      have := holds_unique hi hj
      cases this
    · exact absurd hi (n i false)
  · refine keyInv_congr ?_ (writesTo_same hw k) ?_ (hk k)
    · intro j b
      rw [hgs]
      apply holds_set_other _ h
      · intro b; simp [hold, e]
      · intro b; simp [ht', e]
    · rw [hc]
      have e' : ¬ k = t.url := fun x => e x.symm
      simp [e']

theorem key_write {fetcher : Fetcher} {s s' : State} {i : Nat} {t t' : Goroutine}
    (h : s.gs[i]? = some t) (hpc : t.pc = PC.fetchedPC)
    (hgs : s'.gs = s.gs.set i t') (ht' : t'.holds = none)
    (hw : s'.writes = s.writes ++ [(t.url, (fetcher.Fetch t.url).err)])
    (hc : s'.calls = s.calls)
    (hk : ∀ k, KeyInv fetcher s k) : ∀ k, KeyInv fetcher s' k := by
  intro k
  have hold : t.holds = some (t.url, true) := by simp [Goroutine.holds, hpc]
  have hi : Holds s.gs i t.url true := ⟨t, h, hold⟩
  by_cases e : t.url = k
  · subst e
    rcases hk t.url with ⟨_, _, n⟩ | ⟨w, c, j, hj, uq⟩ | ⟨w, c, j, hj, uq⟩ | ⟨_, _, n⟩
    · exact absurd hi (n i true)
    · have hij : i = j := uq i true hi
      subst hij
      have := holds_unique hi hj
      cases this
    · have hij : i = j := uq i true hi
      subst hij
      right; right; right
      refine ⟨?_, by rw [hc]; exact c, ?_⟩
      · rw [writesTo_append hw, w]
        simp
      · intro j' b hj'
        rw [hgs, holds_set_iff _ h] at hj'
        rcases hj' with ⟨_, hh⟩ | ⟨hne, hh⟩
        · rw [ht'] at hh
          cases hh
        · exact hne (uq j' b hh)
    · exact absurd hi (n i true)
  · refine keyInv_congr ?_ ?_ ?_ (hk k)
    · intro j b
      rw [hgs]
      apply holds_set_other _ h
      · intro b; simp [hold, e]
      · intro b; simp [ht']
    · rw [writesTo_append hw k]
      simp [e]
    · rw [hc]

/-! ## The map and its write history; the root call -/

theorem mapw_write {m0 : VisitMap} {s s' : State} {u : String} {v : Option Error}
    (hf : s'.fetched = mapSet s.fetched u v) (hw : s'.writes = s.writes ++ [(u, v)])
    (hm : ∀ k, mapGet s.fetched k =
      match (s.writesTo k).getLast? with
      | some v => some v
      | none => mapGet m0 k) :
    ∀ k, mapGet s'.fetched k =
      match (s'.writesTo k).getLast? with
      | some v => some v
      | none => mapGet m0 k := by
  intro k
  rw [hf, mapGet_mapSet, writesTo_append hw k]
  by_cases e : u = k
  · simp [e]
  · simp only [e, if_false, List.append_nil]
    exact hm k

theorem mapw_same {m0 : VisitMap} {s s' : State}
    (hf : s'.fetched = s.fetched) (hw : s'.writes = s.writes)
    (hm : ∀ k, mapGet s.fetched k =
      match (s.writesTo k).getLast? with
      | some v => some v
      | none => mapGet m0 k) :
    ∀ k, mapGet s'.fetched k =
      match (s'.writesTo k).getLast? with
      | some v => some v
      | none => mapGet m0 k := by
  intro k
  rw [hf, writesTo_same hw k]
  exact hm k

theorem absent_fresh {m0 : VisitMap} {s : State} {u : String}
    (hm : ∀ k, mapGet s.fetched k =
      match (s.writesTo k).getLast? with
      | some v => some v
      | none => mapGet m0 k)
    (h : mapGet s.fetched u = none) : s.writesTo u = [] ∧ mapGet m0 u = none := by
  have := hm u
  rw [h] at this
  cases hl : (s.writesTo u).getLast? with
  | none =>
    rw [hl] at this
    exact ⟨by simpa using hl, this.symm⟩
  | some v =>
    rw [hl] at this
    cases this

theorem holder_written {fetcher : Fetcher} {s : State} {i : Nat} {t : Goroutine}
    (hk : ∀ k, KeyInv fetcher s k) (h : s.gs[i]? = some t)
    (hpc : t.pc = PC.claimed ∨ t.pc = PC.fetchedPC) : s.writesTo t.url ≠ [] := by
  have hi : ∃ b, Holds s.gs i t.url b := by
    rcases hpc with e | e
    · exact ⟨false, t, h, by simp [Goroutine.holds, e]⟩
    · exact ⟨true, t, h, by simp [Goroutine.holds, e]⟩
  obtain ⟨b, hb⟩ := hi
  rcases hk t.url with ⟨_, _, n⟩ | ⟨w, _⟩ | ⟨w, _⟩ | ⟨w, _⟩
  · exact absurd hb (n i b)
  · rw [w]; simp
  · rw [w]; simp
  · rw [w]; simp

theorem reach_of_thread {fetcher : Fetcher} {url0 : String} {depth0 : Int} {t : Goroutine}
    (hr : ReachOK fetcher url0 depth0 t) (hd : 0 < t.depth) :
    0 < depth0 ∧ t.url ∈ reachWithin fetcher (depth0 - 1).toNat url0 := by
  obtain ⟨r1, r2⟩ := hr
  refine ⟨by omega, reachWithin_mono fetcher ?_ url0 t.url r2⟩
  omega

theorem key_quiet {fetcher : Fetcher} {s s' : State}
    (hh : ∀ k j b, Holds s'.gs j k b ↔ Holds s.gs j k b)
    (hw : s'.writes = s.writes) (hc : s'.calls = s.calls)
    (hk : ∀ k, KeyInv fetcher s k) : ∀ k, KeyInv fetcher s' k := by
  intro k
  exact keyInv_congr (hh k) (writesTo_same hw k) (by rw [hc]) (hk k)

theorem key_step {fetcher : Fetcher} {m0 : VisitMap} {s s' : State} {i : Nat}
    (h : StepRel fetcher s i s')
    (hl : ∀ (j : Nat) (t : Goroutine), s.gs[j]? = some t → LocalOK fetcher t)
    (hm : ∀ k, mapGet s.fetched k =
      match (s.writesTo k).getLast? with
      | some v => some v
      | none => mapGet m0 k)
    (hk : ∀ k, KeyInv fetcher s k) : ∀ k, KeyInv fetcher s' k := by
  cases h with
  | skip t h hpc hc =>
    refine key_quiet (s := s) ?_ rfl rfl hk
    intro k j b
    exact holds_set_other { t with pc := PC.returned } h k (by simp [Goroutine.holds, hpc]) (by simp [Goroutine.holds]) j b
  | claim t h hpc hd hmap =>
    exact key_claim h hpc rfl rfl rfl (absent_fresh hm hmap).1 hk
  | fetch t h hpc =>
    exact key_fetch h hpc rfl (by simp [Goroutine.holds]) rfl rfl hk
  | resolveErr t r h hpc hr he =>
    have e := (hl _ _ h).1 r hr
    subst e
    exact key_write h hpc rfl (by simp [Goroutine.holds]) rfl rfl hk
  | resolveOk t r h hpc hr he =>
    have e := (hl _ _ h).1 r hr
    subst e
    exact key_write h hpc rfl (by simp [Goroutine.holds]) rfl rfl hk
  | spawn t u rest h hpc =>
    refine key_quiet (s := s) ?_ rfl rfl hk
    intro k j b
    show Holds (s.gs.set i { t with pc := PC.spawning rest } ++ [child i u t.depth]) j k b ↔ _
    rw [holds_append _ (by simp [Goroutine.holds, child])]
    exact holds_set_other { t with pc := PC.spawning rest } h k (by simp [Goroutine.holds, hpc]) (by simp [Goroutine.holds]) j b
  | spawned t r h hpc hr =>
    refine key_quiet (s := s) ?_ rfl rfl hk
    intro k j b
    exact holds_set_other { t with pc := PC.waiting r.urls } h k (by simp [Goroutine.holds, hpc]) (by simp [Goroutine.holds]) j b
  | finish t h hpc =>
    refine key_quiet (s := s) ?_ rfl rfl hk
    intro k j b
    exact holds_set_other { t with pc := PC.returned } h k (by simp [Goroutine.holds, hpc]) (by simp [Goroutine.holds]) j b
  | send t tp p u rest h hpc hp hgp hppc =>
    refine key_quiet (s := s) ?_ rfl rfl hk
    intro k j b
    have hip : i ≠ p := by
      intro e
      subst e
      rw [h] at hgp
      cases hgp
      rw [hpc] at hppc
      cases hppc
    have h' : (s.gs.set p { tp with pc := PC.waiting rest, recvd := tp.recvd + 1 })[i]? = some t := by
      rw [get_set_ne hip]
      exact h
    show Holds (List.set (s.gs.set p { tp with pc := PC.waiting rest, recvd := tp.recvd + 1 }) i
      { t with pc := PC.exited }) j k b ↔ _
    rw [holds_set_other { t with pc := PC.exited } h' k (by simp [Goroutine.holds, hpc])
      (by simp [Goroutine.holds]) j b]
    exact holds_set_other { tp with pc := PC.waiting rest, recvd := tp.recvd + 1 } hgp k
      (by simp [Goroutine.holds, hppc]) (by simp [Goroutine.holds]) j b

theorem mapw_step {fetcher : Fetcher} {m0 : VisitMap} {s s' : State} {i : Nat}
    (h : StepRel fetcher s i s')
    (hm : ∀ k, mapGet s.fetched k =
      match (s.writesTo k).getLast? with
      | some v => some v
      | none => mapGet m0 k) :
    ∀ k, mapGet s'.fetched k =
      match (s'.writesTo k).getLast? with
      | some v => some v
      | none => mapGet m0 k := by
  cases h with
  | skip t h hpc hc => exact mapw_same rfl rfl hm
  | claim t h hpc hd hmap => exact mapw_write rfl rfl hm
  | fetch t h hpc => exact mapw_same rfl rfl hm
  | resolveErr t r h hpc hr he => exact mapw_write rfl rfl hm
  | resolveOk t r h hpc hr he => exact mapw_write rfl rfl hm
  | spawn t u rest h hpc => exact mapw_same rfl rfl hm
  | spawned t r h hpc hr => exact mapw_same rfl rfl hm
  | finish t h hpc => exact mapw_same rfl rfl hm
  | send t tp p u rest h hpc hp hgp hppc => exact mapw_same rfl rfl hm

theorem fresh_write {m0 : VisitMap} {s s' : State} {u : String} {v : Option Error}
    (hw : s'.writes = s.writes ++ [(u, v)]) (hu : mapGet m0 u = none)
    (hf : ∀ k, s.writesTo k ≠ [] → mapGet m0 k = none) :
    ∀ k, s'.writesTo k ≠ [] → mapGet m0 k = none := by
  intro k hk
  rw [writesTo_append hw k] at hk
  by_cases e : u = k
  · rw [← e]; exact hu
  · simp only [e, if_false, List.append_nil] at hk
    exact hf k hk

theorem fresh_step {fetcher : Fetcher} {m0 : VisitMap} {s s' : State} {i : Nat}
    (h : StepRel fetcher s i s')
    (hm : ∀ k, mapGet s.fetched k =
      match (s.writesTo k).getLast? with
      | some v => some v
      | none => mapGet m0 k)
    (hk : ∀ k, KeyInv fetcher s k)
    (hf : ∀ k, s.writesTo k ≠ [] → mapGet m0 k = none) :
    ∀ k, s'.writesTo k ≠ [] → mapGet m0 k = none := by
  cases h with
  | skip t h hpc hc => exact hf
  | claim t h hpc hd hmap => exact fresh_write rfl (absent_fresh hm hmap).2 hf
  | fetch t h hpc => exact hf
  | resolveErr t r h hpc hr he =>
    exact fresh_write rfl (hf _ (holder_written hk h (Or.inr hpc))) hf
  | resolveOk t r h hpc hr he =>
    exact fresh_write rfl (hf _ (holder_written hk h (Or.inr hpc))) hf
  | spawn t u rest h hpc => exact hf
  | spawned t r h hpc hr => exact hf
  | finish t h hpc => exact hf
  | send t tp p u rest h hpc hp hgp hppc => exact hf

theorem reach_step {fetcher : Fetcher} {url0 : String} {depth0 : Int} {s s' : State} {i : Nat}
    (h : StepRel fetcher s i s')
    (hl : ∀ (j : Nat) (t : Goroutine), s.gs[j]? = some t → LocalOK fetcher t)
    (hr : ∀ (j : Nat) (t : Goroutine), s.gs[j]? = some t → ReachOK fetcher url0 depth0 t)
    (hc : ∀ u ∈ s.calls, 0 < depth0 ∧ u ∈ reachWithin fetcher (depth0 - 1).toNat url0)
    (hw : ∀ e ∈ s.writes, 0 < depth0 ∧ e.1 ∈ reachWithin fetcher (depth0 - 1).toNat url0) :
    (∀ u ∈ s'.calls, 0 < depth0 ∧ u ∈ reachWithin fetcher (depth0 - 1).toNat url0) ∧
    (∀ e ∈ s'.writes, 0 < depth0 ∧ e.1 ∈ reachWithin fetcher (depth0 - 1).toNat url0) := by
  have add : ∀ (t : Goroutine) (v : Option Error), s.gs[i]? = some t → 0 < t.depth →
      ∀ e ∈ s.writes ++ [(t.url, v)],
        0 < depth0 ∧ e.1 ∈ reachWithin fetcher (depth0 - 1).toNat url0 := by
    intro t v ht hd e he
    rcases List.mem_append.1 he with h1 | h1
    · exact hw e h1
    · simp at h1
      subst h1
      exact reach_of_thread (hr _ _ ht) hd
  cases h with
  | skip t h hpc hc' => exact ⟨hc, hw⟩
  | claim t h hpc hd hmap => exact ⟨hc, add t _ h hd⟩
  | fetch t h hpc =>
    refine ⟨?_, hw⟩
    intro u hu
    rcases List.mem_append.1 hu with h1 | h1
    · exact hc u h1
    · simp at h1
      subst h1
      have := (hl _ _ h).2
      rw [hpc] at this
      exact reach_of_thread (hr _ _ h) this.2.2
  | resolveErr t r h hpc hr' he =>
    have := (hl _ _ h).2
    rw [hpc] at this
    exact ⟨hc, add t _ h this.2.2⟩
  | resolveOk t r h hpc hr' he =>
    have := (hl _ _ h).2
    rw [hpc] at this
    exact ⟨hc, add t _ h this.2.2⟩
  | spawn t u rest h hpc => exact ⟨hc, hw⟩
  | spawned t r h hpc hr' => exact ⟨hc, hw⟩
  | finish t h hpc => exact ⟨hc, hw⟩
  | send t tp p u rest h hpc hp hgp hppc => exact ⟨hc, hw⟩

theorem claimed_not_called {fetcher : Fetcher} {s : State} {i : Nat} {t : Goroutine}
    (hk : ∀ k, KeyInv fetcher s k) (h : s.gs[i]? = some t) (hpc : t.pc = PC.claimed) :
    t.url ∉ s.calls := by
  have hi : Holds s.gs i t.url false := ⟨t, h, by simp [Goroutine.holds, hpc]⟩
  rcases hk t.url with ⟨_, c, _⟩ | ⟨_, c, _⟩ | ⟨_, _, j, hj, uq⟩ | ⟨_, _, n⟩
  · exact c
  · exact c
  · have hij : i = j := uq i false hi
    subst hij
    have := holds_unique hi hj
    cases this
  · exact absurd hi (n i false)

theorem nodup_step {fetcher : Fetcher} {s s' : State} {i : Nat}
    (h : StepRel fetcher s i s') (hk : ∀ k, KeyInv fetcher s k) (hn : s.calls.Nodup) :
    s'.calls.Nodup := by
  cases h with
  | fetch t h hpc =>
    show (s.calls ++ [t.url]).Nodup
    rw [List.nodup_append]
    refine ⟨hn, by simp, ?_⟩
    intro a ha hb
    simp at hb
    subst hb
    exact claimed_not_called hk h hpc ha
  | skip t h hpc hc => exact hn
  | claim t h hpc hd hmap => exact hn
  | resolveErr t r h hpc hr he => exact hn
  | resolveOk t r h hpc hr he => exact hn
  | spawn t u rest h hpc => exact hn
  | spawned t r h hpc hr => exact hn
  | finish t h hpc => exact hn
  | send t tp p u rest h hpc hp hgp hppc => exact hn

/-! ## The invariant holds in every state of a run -/

theorem start_get {m0 : VisitMap} {url : String} {depth : Int} {j : Nat} {t : Goroutine}
    (h : (Crawl.start m0 url depth).gs[j]? = some t) :
    j = 0 ∧ t = rootCall url depth := by
  cases j with
  | zero =>
    simp [Crawl.start] at h
    exact ⟨rfl, h.symm⟩
  | succ n => simp [Crawl.start] at h

theorem moves_not_entry {fetcher : Fetcher} {m : VisitMap} {t t' : Goroutine}
    (h : Moves fetcher m t t') : t'.pc ≠ PC.entry := by
  cases h <;> simp

theorem inv_start (fetcher : Fetcher) (m0 : VisitMap) (url : String) (depth : Int) :
    CrawlInv fetcher m0 url depth (Crawl.start m0 url depth) := by
  refine
    { root := ⟨_, rfl, rfl, rfl, rfl⟩
      rootEntry := fun _ _ _ => rfl
      rootFetched := ?_
      loc := ?_
      par := ?_
      rch := ?_
      cov := ?_
      kc := ?_
      key := ?_
      mapw := ?_
      fresh := ?_
      nodup := by simp [Crawl.start]
      callsReach := ?_
      writesReach := ?_ }
  · intro _ _ t ht
    obtain ⟨_, rfl⟩ := start_get (j := 0) ht
    exact Or.inl rfl
  · intro j t ht
    obtain ⟨_, rfl⟩ := start_get ht
    exact ⟨by intro r hr; simp [rootCall] at hr, rfl, rfl⟩
  · intro j t ht
    obtain ⟨rfl, rfl⟩ := start_get ht
    rfl
  · intro j t ht
    obtain ⟨_, rfl⟩ := start_get ht
    exact ⟨le_refl _, by simp [reachWithin, rootCall]⟩
  · intro j t ht
    obtain ⟨_, rfl⟩ := start_get ht
    intro hne
    simp [rootCall] at hne
  · intro j t ht
    obtain ⟨_, rfl⟩ := start_get ht
    refine ⟨by simp [kidsKey, Crawl.start, pending, target, rootCall],
      by simp [kidsKey, aliveOf, Crawl.start, rootCall], ?_, ?_⟩
    · intro todo e; simp [rootCall] at e
    · intro e; simp [rootCall] at e
  · intro k
    left
    refine ⟨by simp [State.writesTo, Crawl.start], by simp [Crawl.start], ?_⟩
    rintro j b ⟨t, ht, hh⟩
    obtain ⟨_, rfl⟩ := start_get ht
    simp [Goroutine.holds, rootCall] at hh
  · intro k
    simp [State.writesTo, Crawl.start]
  · intro k hk
    simp [State.writesTo, Crawl.start] at hk
  · intro u hu
    simp [Crawl.start] at hu
  · intro e he
    simp [Crawl.start] at he

theorem inv_step {fetcher : Fetcher} {m0 : VisitMap} {url0 : String} {depth0 : Int}
    {s s' : State} {i : Nat} (hinv : CrawlInv fetcher m0 url0 depth0 s)
    (h : StepRel fetcher s i s') : CrawlInv fetcher m0 url0 depth0 s' := by
  have hnoEntry : ∀ t', s'.gs[0]? = some t' → t'.pc ≠ PC.entry := by
    intro t' ht' hpc
    rcases step_threads h ht' with ⟨hne, h1⟩ | ⟨t, h1, hm⟩ | ⟨hlen, t, _, _, h1, _, _⟩
    · have hs := hinv.rootEntry t' h1 hpc
      obtain ⟨ti, hti⟩ := step_actor h
      rw [hs] at hti
      exact hne (start_get hti).1.symm
    · exact moves_not_entry hm hpc
    · have := get_lt h1
      omega
  refine
    { root := ?_
      rootEntry := fun t' ht' hpc => absurd hpc (hnoEntry t' ht')
      rootFetched := ?_
      loc := loc_step h hinv.loc
      par := par_step h hinv.par
      rch := rch_step h hinv.loc hinv.rch
      cov := cov_step h hinv.cov
      kc := kc_step h hinv.loc hinv.par hinv.kc
      key := key_step h hinv.loc hinv.mapw hinv.key
      mapw := mapw_step h hinv.mapw
      fresh := fresh_step h hinv.mapw hinv.key hinv.fresh
      nodup := nodup_step h hinv.key hinv.nodup
      callsReach := (reach_step h hinv.loc hinv.rch hinv.callsReach hinv.writesReach).1
      writesReach := (reach_step h hinv.loc hinv.rch hinv.callsReach hinv.writesReach).2 }
  · obtain ⟨t, ht, h1, h2, h3⟩ := hinv.root
    rcases step_old h ht with h' | ⟨t', h', hm⟩
    · exact ⟨t, h', h1, h2, h3⟩
    · obtain ⟨m1, m2, m3⟩ := moves_key hm
      exact ⟨t', h', by rw [m1, h1], by rw [m2, h2], by rw [m3, h3]⟩
  · intro hd hm0 t' ht'
    rcases step_threads h ht' with ⟨_, h1⟩ | ⟨t, h1, hm⟩ | ⟨hlen, t, _, _, h1, _, _⟩
    · exact hinv.rootFetched hd hm0 t' h1
    · have hold := hinv.rootFetched hd hm0 t h1
      obtain ⟨t0, ht0, _, r2, r3⟩ := hinv.root
      rw [h1] at ht0
      cases ht0
      have hl := (hinv.loc 0 t h1).2
      cases hm with
      | skip hpc hc =>
        have hs := hinv.rootEntry t h1 hpc
        rw [hs, r2, r3] at hc
        simp only [Crawl.start] at hc
        rcases hc with hc | hc
        · omega
        · exact absurd hm0 hc
      | claim hpc _ _ => exact Or.inr (Or.inl rfl)
      | fetch hpc => exact Or.inr (Or.inr (by simp))
      | resolveErr r hpc hr he => exact Or.inr (Or.inr (by simp [hr]))
      | resolveOk r hpc hr he => exact Or.inr (Or.inr (by simp [hr]))
      | spawn u rest hpc =>
        rw [hpc] at hl
        exact Or.inr (Or.inr (by simp [hl.1]))
      | spawned r hpc hr => exact Or.inr (Or.inr (by simp [hr]))
      | finish hpc =>
        rw [hpc] at hl
        exact Or.inr (Or.inr (by simp [hl.1]))
      | send hpc hp =>
        rcases hold with e | e | e
        · rw [hpc] at e; cases e
        · rw [hpc] at e; cases e
        · exact Or.inr (Or.inr e)
      | recv u rest hpc =>
        rw [hpc] at hl
        exact Or.inr (Or.inr (by simp [hl.1]))
    · have := get_lt h1
      omega

theorem inv_run {fetcher : Fetcher} {m0 : VisitMap} {url0 : String} {depth0 : Int} :
    ∀ (sched : List Nat) (s s' : State), CrawlInv fetcher m0 url0 depth0 s →
      Crawl.run fetcher s sched = some s' → CrawlInv fetcher m0 url0 depth0 s' := by
  intro sched
  induction sched with
  | nil =>
    intro s s' hinv h
    simp [Crawl.run] at h
    subst h
    exact hinv
  | cons i rest ih =>
    intro s s' hinv h
    simp only [Crawl.run] at h
    cases hs : Crawl.step fetcher s i with
    | none => rw [hs] at h; cases h
    | some s1 =>
      rw [hs] at h
      exact ih s1 s' (inv_step hinv (step_rel hs)) h

theorem inv_reach {fetcher : Fetcher} {m0 : VisitMap} {url0 : String} {depth0 : Int}
    {sched : List Nat} {s : State}
    (h : Crawl.run fetcher (Crawl.start m0 url0 depth0) sched = some s) :
    CrawlInv fetcher m0 url0 depth0 s :=
  inv_run sched _ s (inv_start fetcher m0 url0 depth0) h

/-! ## Termination and absence of deadlock -/

theorem cost_ge (fetcher : Fetcher) (n : Nat) (u : String) : 2 ≤ cost fetcher n u := by
  cases n with
  | zero => simp [cost]
  | succ n => simp [cost]; omega

theorem stepsLeft_decr {fetcher : Fetcher} {s s' : State} {i : Nat}
    (h : StepRel fetcher s i s') : stepsLeft fetcher s' < stepsLeft fetcher s := by
  unfold stepsLeft
  cases h with
  | skip t h hpc hc =>
    have := sum_map_set (weight fetcher) s.gs i t { t with pc := PC.returned } h
    have h1 : weight fetcher t = cost fetcher t.depth.toNat t.url := by simp [weight, hpc]
    have h2 : weight fetcher { t with pc := PC.returned } = 1 := by simp [weight]
    have := cost_ge fetcher t.depth.toNat t.url
    simp only at *
    omega
  | claim t h hpc hd hm =>
    have := sum_map_set (weight fetcher) s.gs i t { t with pc := PC.claimed } h
    have e : t.depth.toNat = (t.depth - 1).toNat + 1 := by omega
    have h1 : weight fetcher t = 6 + ((fetcher.Fetch t.url).urls.map
        (fun v => 1 + cost fetcher (t.depth - 1).toNat v)).sum := by
      simp only [weight, hpc]
      rw [e, cost]
    have h2 : weight fetcher { t with pc := PC.claimed } = 5 + ((fetcher.Fetch t.url).urls.map
        (fun v => 1 + cost fetcher (t.depth - 1).toNat v)).sum := by simp [weight]
    simp only at *
    omega
  | fetch t h hpc =>
    have := sum_map_set (weight fetcher) s.gs i t
      { t with pc := PC.fetchedPC, res := some (fetcher.Fetch t.url) } h
    have h1 : weight fetcher t = 5 + ((fetcher.Fetch t.url).urls.map
        (fun v => 1 + cost fetcher (t.depth - 1).toNat v)).sum := by simp [weight, hpc]
    have h2 : weight fetcher { t with pc := PC.fetchedPC, res := some (fetcher.Fetch t.url) }
        = 4 + ((fetcher.Fetch t.url).urls.map
          (fun v => 1 + cost fetcher (t.depth - 1).toNat v)).sum := by simp [weight]
    simp only at *
    omega
  | resolveErr t r h hpc hr he =>
    have := sum_map_set (weight fetcher) s.gs i t { t with pc := PC.returned } h
    have h1 : 4 ≤ weight fetcher t := by simp [weight, hpc]
    have h2 : weight fetcher { t with pc := PC.returned } = 1 := by simp [weight]
    simp only at *
    omega
  | resolveOk t r h hpc hr he =>
    have := sum_map_set (weight fetcher) s.gs i t { t with pc := PC.spawning r.urls } h
    have h1 : weight fetcher t = 4 + (r.urls.map
        (fun v => 1 + cost fetcher (t.depth - 1).toNat v)).sum := by simp [weight, hpc, hr]
    have h2 : weight fetcher { t with pc := PC.spawning r.urls } = 3 + (r.urls.map
        (fun v => 1 + cost fetcher (t.depth - 1).toNat v)).sum := by simp [weight]
    simp only at *
    omega
  | spawn t u rest h hpc =>
    have := sum_map_set (weight fetcher) s.gs i t { t with pc := PC.spawning rest } h
    have h1 : weight fetcher t = 3 + (1 + cost fetcher (t.depth - 1).toNat u) + (rest.map
        (fun v => 1 + cost fetcher (t.depth - 1).toNat v)).sum := by
      simp [weight, hpc]
      omega
    have h2 : weight fetcher { t with pc := PC.spawning rest } = 3 + (rest.map
        (fun v => 1 + cost fetcher (t.depth - 1).toNat v)).sum := by simp [weight]
    have h3 : weight fetcher (child i u t.depth) = cost fetcher (t.depth - 1).toNat u := by
      simp [weight, child]
    simp only [List.map_append, List.sum_append, List.map_cons, List.map_nil, List.sum_cons,
      List.sum_nil] at *
    omega
  | spawned t r h hpc hr =>
    have := sum_map_set (weight fetcher) s.gs i t { t with pc := PC.waiting r.urls } h
    have h1 : weight fetcher t = 3 := by simp [weight, hpc]
    have h2 : weight fetcher { t with pc := PC.waiting r.urls } = 2 := by simp [weight]
    simp only at *
    omega
  | finish t h hpc =>
    have := sum_map_set (weight fetcher) s.gs i t { t with pc := PC.returned } h
    have h1 : weight fetcher t = 2 := by simp [weight, hpc]
    have h2 : weight fetcher { t with pc := PC.returned } = 1 := by simp [weight]
    simp only at *
    omega
  | send t tp p u rest h hpc hp hgp hppc =>
    have hip : i ≠ p := by
      intro e
      subst e
      rw [h] at hgp
      cases hgp
      rw [hpc] at hppc
      cases hppc
    have h' : (s.gs.set p { tp with pc := PC.waiting rest, recvd := tp.recvd + 1 })[i]? = some t := by
      rw [get_set_ne hip]
      exact h
    have a1 := sum_map_set (weight fetcher) s.gs p tp
      { tp with pc := PC.waiting rest, recvd := tp.recvd + 1 } hgp
    have a2 := sum_map_set (weight fetcher) _ i t { t with pc := PC.exited } h'
    have h1 : weight fetcher t = 1 := by simp [weight, hpc]
    have h2 : weight fetcher { t with pc := PC.exited } = 0 := by simp [weight]
    have h3 : weight fetcher tp = 2 := by simp [weight, hppc]
    have h4 : weight fetcher { tp with pc := PC.waiting rest, recvd := tp.recvd + 1 } = 2 := by
      simp [weight]
    simp only at *
    omega

theorem run_length {fetcher : Fetcher} :
    ∀ (sched : List Nat) (s s' : State), Crawl.run fetcher s sched = some s' →
      sched.length + stepsLeft fetcher s' ≤ stepsLeft fetcher s := by
  intro sched
  induction sched with
  | nil =>
    intro s s' h
    simp [Crawl.run] at h
    subst h
    simp
  | cons i rest ih =>
    intro s s' h
    simp only [Crawl.run] at h
    cases hs : Crawl.step fetcher s i with
    | none => rw [hs] at h; cases h
    | some s1 =>
      rw [hs] at h
      have := ih s1 s' h
      have := stepsLeft_decr (step_rel hs)
      simp only [List.length_cons]
      omega

theorem stepsLeft_init (fetcher : Fetcher) (m0 : VisitMap) (url : String) (depth : Int) :
    stepsLeft fetcher (Crawl.start m0 url depth) = cost fetcher depth.toNat url := by
  simp [stepsLeft, Crawl.start, weight, rootCall]

theorem run_append {fetcher : Fetcher} :
    ∀ (a b : List Nat) (s s1 s2 : State), Crawl.run fetcher s a = some s1 →
      Crawl.run fetcher s1 b = some s2 → Crawl.run fetcher s (a ++ b) = some s2 := by
  intro a
  induction a with
  | nil =>
    intro b s s1 s2 h1 h2
    simp [Crawl.run] at h1
    subst h1
    simpa using h2
  | cons i rest ih =>
    intro b s s1 s2 h1 h2
    simp only [Crawl.run, List.cons_append] at h1 ⊢
    cases hs : Crawl.step fetcher s i with
    | none => rw [hs] at h1; cases h1
    | some s' =>
      rw [hs] at h1
      simp only
      exact ih b s' s1 s2 h1 h2

/-- Every state can be run to a state where no goroutine can step. -/
theorem exists_stuck (fetcher : Fetcher) :
    ∀ (n : Nat) (s : State), stepsLeft fetcher s ≤ n →
      ∃ sched s', Crawl.run fetcher s sched = some s' ∧ s'.stuck fetcher := by
  intro n
  induction n with
  | zero =>
    intro s hs
    refine ⟨[], s, rfl, ?_⟩
    intro i
    cases h : Crawl.step fetcher s i with
    | none => rfl
    | some s1 =>
      have := stepsLeft_decr (step_rel h)
      omega
  | succ n ih =>
    intro s hs
    by_cases hst : s.stuck fetcher
    · exact ⟨[], s, rfl, hst⟩
    · unfold State.stuck at hst
      push_neg at hst
      obtain ⟨i, hi⟩ := hst
      cases h : Crawl.step fetcher s i with
      | none => exact absurd h hi
      | some s1 =>
        have := stepsLeft_decr (step_rel h)
        obtain ⟨sched, s', hr, hs'⟩ := ih s1 (by omega)
        refine ⟨i :: sched, s', ?_, hs'⟩
        simp only [Crawl.run, h]
        exact hr

/-! ## Progress, and the state in which the root call has returned -/

/-- A goroutine that cannot step is blocked in a receive, blocked in a send,
has exited, or is the root call after its return. -/
theorem blocked_cases {fetcher : Fetcher} {s : State} {j : Nat} {t : Goroutine}
    (hl : LocalOK fetcher t) (hj : s.gs[j]? = some t) (h : Crawl.step fetcher s j = none) :
    (∃ u rest, t.pc = PC.waiting (u :: rest)) ∨ t.pc = PC.exited ∨
      (t.pc = PC.returned ∧ ∀ p tp u rest, t.parent = some p → s.gs[p]? = some tp →
        tp.pc ≠ PC.waiting (u :: rest)) := by
  obtain ⟨_, l2⟩ := hl
  unfold Crawl.step at h
  rw [hj] at h
  simp only at h
  cases hpc : t.pc with
  | entry =>
    rw [hpc] at h
    simp only at h
    split at h
    · cases h
    · split at h <;> cases h
  | claimed =>
    rw [hpc] at h
    cases h
  | fetchedPC =>
    rw [hpc] at h l2
    simp only [l2.1] at h
    cases h
  | spawning todo =>
    rw [hpc] at h l2
    cases todo with
    | nil =>
      simp only [l2.1] at h
      cases h
    | cons u rest => cases h
  | waiting todo =>
    cases todo with
    | nil =>
      rw [hpc] at h
      cases h
    | cons u rest => exact Or.inl ⟨u, rest, rfl⟩
  | returned =>
    right; right
    refine ⟨rfl, ?_⟩
    intro p tp u rest hp htp hppc
    rw [hpc] at h
    simp only [hp, htp, hppc] at h
    cases h
  | exited => exact Or.inr (Or.inl rfl)

theorem alive_pos_child {gs : List Goroutine} {p : Nat} (h : 0 < aliveOf gs p) :
    ∃ (jc : Nat) (c : Goroutine), gs[jc]? = some c ∧ c.parent = some p ∧ c.pc ≠ PC.exited := by
  unfold aliveOf at h
  obtain ⟨c, hc⟩ := List.exists_mem_of_length_pos h
  rw [List.mem_filter] at hc
  obtain ⟨hmem, hq⟩ := hc
  obtain ⟨jc, hjc⟩ := List.getElem?_of_mem hmem
  simp at hq
  exact ⟨jc, c, hjc, hq.1, hq.2⟩

theorem alive_zero_child {gs : List Goroutine} {p jc : Nat} {c : Goroutine}
    (h : aliveOf gs p = 0) (hc : gs[jc]? = some c) (hp : c.parent = some p) :
    c.pc = PC.exited := by
  unfold aliveOf at h
  have hnil := List.length_eq_zero.1 h
  have hmem : c ∈ gs := List.getElem?_mem hc
  by_contra hne
  have : c ∈ gs.filter (fun c => c.parent = some p ∧ c.pc ≠ PC.exited) := by
    rw [List.mem_filter]
    exact ⟨hmem, by simp [hp, hne]⟩
  rw [hnil] at this
  cases this

theorem no_waiter {fetcher : Fetcher} {m0 : VisitMap} {url0 : String} {depth0 : Int}
    {s : State} (hinv : CrawlInv fetcher m0 url0 depth0 s) (hst : s.stuck fetcher) :
    ∀ (n : Nat) (j : Nat) (t : Goroutine), s.gs[j]? = some t → t.depth.toNat ≤ n →
      ∀ u rest, t.pc ≠ PC.waiting (u :: rest) := by
  intro n
  induction n with
  | zero =>
    intro j t hj hn u rest hpc
    have := (hinv.loc j t hj).2
    rw [hpc] at this
    have := this.2.1
    omega
  | succ n ih =>
    intro j t hj hn u rest hpc
    have hl := (hinv.loc j t hj).2
    rw [hpc] at hl
    have hk := (hinv.kc j t hj).2.2.1 _ hpc
    have hpos : 0 < aliveOf s.gs j := by rw [hk]; simp
    obtain ⟨jc, c, hjc, hcp, hce⟩ := alive_pos_child hpos
    have hpar := hinv.par jc c hjc
    unfold ParOK at hpar
    rw [hcp] at hpar
    obtain ⟨_, tp, htp, hd⟩ := hpar
    rw [hj] at htp
    cases htp
    rcases blocked_cases (hinv.loc jc c hjc) hjc (hst jc) with ⟨u', rest', hw⟩ | he | ⟨_, hr⟩
    · have hcl := (hinv.loc jc c hjc).2
      rw [hw] at hcl
      exact ih jc c hjc (by omega) u' rest' hw
    · exact hce he
    · exact hr j t u rest hcp hj hpc

/-- Absence of deadlock: when no goroutine can step, the root call has returned. -/
theorem progress {fetcher : Fetcher} {m0 : VisitMap} {url0 : String} {depth0 : Int}
    {s : State} (hinv : CrawlInv fetcher m0 url0 depth0 s) (hst : s.stuck fetcher) :
    s.rootReturned := by
  obtain ⟨t, ht, hpar, _, _⟩ := hinv.root
  refine ⟨t, ht, ?_⟩
  rcases blocked_cases (hinv.loc 0 t ht) ht (hst 0) with ⟨u, rest, hw⟩ | he | ⟨hr, _⟩
  · exact absurd hw (no_waiter hinv hst t.depth.toNat 0 t ht (le_refl _) u rest)
  · have := (hinv.loc 0 t ht).2
    rw [he] at this
    exact absurd hpar this
  · exact hr

/-- When the root call has returned, every other goroutine has exited. -/
theorem final_threads {fetcher : Fetcher} {m0 : VisitMap} {url0 : String} {depth0 : Int}
    {s : State} (hinv : CrawlInv fetcher m0 url0 depth0 s) (hret : s.rootReturned) :
    ∀ (n : Nat) (j : Nat) (t : Goroutine), j ≤ n → s.gs[j]? = some t →
      (j = 0 ∧ t.pc = PC.returned) ∨ t.pc = PC.exited := by
  intro n
  induction n with
  | zero =>
    intro j t hjn hj
    have hj0 : j = 0 := by omega
    subst hj0
    obtain ⟨t0, ht0, hpc⟩ := hret
    rw [hj] at ht0
    cases ht0
    exact Or.inl ⟨rfl, hpc⟩
  | succ n ih =>
    intro j t hjn hj
    have hpar := hinv.par j t hj
    unfold ParOK at hpar
    cases hp : t.parent with
    | none =>
      rw [hp] at hpar
      simp only at hpar
      subst hpar
      obtain ⟨t0, ht0, hpc⟩ := hret
      rw [hj] at ht0
      cases ht0
      exact Or.inl ⟨rfl, hpc⟩
    | some p =>
      rw [hp] at hpar
      obtain ⟨hlt, tp, htp, _⟩ := hpar
      have hdone : tp.pc = PC.returned ∨ tp.pc = PC.exited := by
        rcases ih p tp (by omega) htp with ⟨_, h1⟩ | h1
        · exact Or.inl h1
        · exact Or.inr h1
      have h0 := (hinv.kc p tp htp).2.2.2 hdone
      exact Or.inr (alive_zero_child h0 hj hp)

theorem final_pc {fetcher : Fetcher} {m0 : VisitMap} {url0 : String} {depth0 : Int}
    {s : State} (hinv : CrawlInv fetcher m0 url0 depth0 s) (hret : s.rootReturned)
    {j : Nat} {t : Goroutine} (hj : s.gs[j]? = some t) :
    t.pc = PC.returned ∨ t.pc = PC.exited := by
  rcases final_threads hinv hret j j t (le_refl _) hj with ⟨_, h⟩ | h
  · exact Or.inl h
  · exact Or.inr h

/-- When the root call has returned, every key is untouched or resolved. -/
theorem final_key {fetcher : Fetcher} {m0 : VisitMap} {url0 : String} {depth0 : Int}
    {s : State} (hinv : CrawlInv fetcher m0 url0 depth0 s) (hret : s.rootReturned)
    (k : String) :
    (s.writesTo k = [] ∧ k ∉ s.calls) ∨
      (s.writesTo k = [some Error.loading, (fetcher.Fetch k).err] ∧ k ∈ s.calls) := by
  have none_holds : ∀ j b, ¬ Holds s.gs j k b := by
    rintro j b ⟨t, ht, hh⟩
    rcases final_pc hinv hret ht with e | e <;> simp [Goroutine.holds, e] at hh
  rcases hinv.key k with ⟨w, c, _⟩ | ⟨_, _, j, hj, _⟩ | ⟨_, _, j, hj, _⟩ | ⟨w, c, _⟩
  · exact Or.inl ⟨w, c⟩
  · exact absurd hj (none_holds j false)
  · exact absurd hj (none_holds j true)
  · exact Or.inr ⟨w, c⟩

/-- The map when the root call has returned. -/
theorem final_map {fetcher : Fetcher} {m0 : VisitMap} {url0 : String} {depth0 : Int}
    {s : State} (hinv : CrawlInv fetcher m0 url0 depth0 s) (hret : s.rootReturned)
    (k : String) :
    mapGet s.fetched k = if k ∈ s.calls then some (fetcher.Fetch k).err else mapGet m0 k := by
  rw [hinv.mapw k]
  rcases final_key hinv hret k with ⟨w, c⟩ | ⟨w, c⟩
  · simp [w, c]
  · simp [w, c]

theorem final_root_covered {fetcher : Fetcher} {m0 : VisitMap} {url0 : String} {depth0 : Int}
    {s : State} (hinv : CrawlInv fetcher m0 url0 depth0 s) (hret : s.rootReturned)
    (hd : 0 < depth0) : mapGet s.fetched url0 ≠ none := by
  obtain ⟨t, ht, _, h2, h3⟩ := hinv.root
  obtain ⟨t0, ht0, hpc⟩ := hret
  rw [ht] at ht0
  cases ht0
  have := hinv.cov 0 t ht (by simp [hpc]) (by omega)
  rw [h2] at this
  exact this

theorem final_links_covered {fetcher : Fetcher} {m0 : VisitMap} {url0 : String} {depth0 : Int}
    {s : State} (hinv : CrawlInv fetcher m0 url0 depth0 s) (hret : s.rootReturned)
    (hd : 1 < depth0) (hm0 : mapGet m0 url0 = none) (he : (fetcher.Fetch url0).err = none)
    (u : String) (hu : u ∈ (fetcher.Fetch url0).urls) : mapGet s.fetched u ≠ none := by
  obtain ⟨t, ht, _, h2, h3⟩ := hinv.root
  obtain ⟨t0, ht0, hpc⟩ := hret
  rw [ht] at ht0
  cases ht0
  have hres : t.res = some (fetcher.Fetch url0) := by
    rcases hinv.rootFetched (by omega) hm0 t ht with e | e | e
    · rw [hpc] at e; cases e
    · rw [hpc] at e; cases e
    · cases hr : t.res with
      | none => exact absurd hr e
      | some r =>
        have := (hinv.loc 0 t ht).1 r hr
        rw [this, h2]
  have hk := (hinv.kc 0 t ht).1
  simp only [pending, target, hpc, hres, he, if_true, List.map_nil, List.append_nil] at hk
  have hmem : (u, t.depth - 1) ∈ kidsKey s.gs 0 := by
    rw [hk]
    exact List.mem_map.2 ⟨u, hu, rfl⟩
  unfold kidsKey at hmem
  obtain ⟨c, hc, hce⟩ := List.mem_map.1 hmem
  rw [List.mem_filter] at hc
  obtain ⟨hcm, _⟩ := hc
  obtain ⟨jc, hjc⟩ := List.getElem?_of_mem hcm
  simp only [Prod.mk.injEq] at hce
  have hcpc : c.pc ≠ PC.entry := by
    rcases final_pc hinv (⟨t, ht, hpc⟩ : s.rootReturned) hjc with e | e <;> simp [e]
  have := hinv.cov jc c hjc hcpc (by rw [hce.2]; omega)
  rw [hce.1] at this
  exact this

/-! ## Runs -/

theorem run_closed {fetcher : Fetcher} (R : State → Prop)
    (hcl : ∀ s i s', R s → Crawl.step fetcher s i = some s' → R s') :
    ∀ (sched : List Nat) (s s' : State), R s → Crawl.run fetcher s sched = some s' → R s' := by
  intro sched
  induction sched with
  | nil =>
    intro s s' hs h
    simp [Crawl.run] at h
    subst h
    exact hs
  | cons i rest ih =>
    intro s s' hs h
    simp only [Crawl.run] at h
    cases hstep : Crawl.step fetcher s i with
    | none => rw [hstep] at h; cases h
    | some s1 =>
      rw [hstep] at h
      exact ih s1 s' (hcl s i s1 hs hstep) h

theorem stub_run :
    Crawl.run stubFetcher (Crawl.start [] seedURL 2) stubSchedule = some stubFinal := by
  decide

theorem chain_run :
    Crawl.run chainFetcher (Crawl.start [] seedURL 3) chainSchedule = some chainFinal := by
  decide

/-- A call stopped by the guards of lines 32-42 only ever reaches two states. -/
theorem skip_states {fetcher : Fetcher} {m0 : VisitMap} {url : String} {depth : Int}
    (hc : depth ≤ 0 ∨ mapGet m0 url ≠ none) (sched : List Nat) (s : State)
    (h : Crawl.run fetcher (Crawl.start m0 url depth) sched = some s) :
    s = Crawl.start m0 url depth ∨ s = Crawl.skipped m0 url depth := by
  refine run_closed (fun s => s = Crawl.start m0 url depth ∨ s = Crawl.skipped m0 url depth)
    ?_ sched _ s (Or.inl rfl) h
  intro s i s' hs hstep
  rcases hs with rfl | rfl
  · right
    cases i with
    | zero =>
      rcases hc with hd | hm
      · simp [Crawl.step, Crawl.start, rootCall, hd] at hstep
        rw [← hstep]
        rfl
      · by_cases hd : depth ≤ 0
        · simp [Crawl.step, Crawl.start, rootCall, hd] at hstep
          rw [← hstep]
          rfl
        · cases hg : mapGet m0 url with
          | none => exact absurd hg hm
          | some v =>
            simp [Crawl.step, Crawl.start, rootCall, hd, hg] at hstep
            rw [← hstep]
            rfl
    | succ n => simp [Crawl.step, Crawl.start] at hstep
  · cases i with
    | zero => simp [Crawl.step, Crawl.skipped] at hstep
    | succ n => simp [Crawl.step, Crawl.skipped] at hstep

theorem skip_step {fetcher : Fetcher} {m0 : VisitMap} {url : String} {depth : Int}
    (hc : depth ≤ 0 ∨ mapGet m0 url ≠ none) :
    Crawl.step fetcher (Crawl.start m0 url depth) 0 = some (Crawl.skipped m0 url depth) := by
  rcases hc with hd | hm
  · simp [Crawl.step, Crawl.start, rootCall, hd, Crawl.skipped]
  · by_cases hd : depth ≤ 0
    · simp [Crawl.step, Crawl.start, rootCall, hd, Crawl.skipped]
    · cases hg : mapGet m0 url with
      | none => exact absurd hg hm
      | some v => simp [Crawl.step, Crawl.start, rootCall, hd, hg, Crawl.skipped]

theorem sibling_run :
    Crawl.run siblingFetcher (Crawl.start [] seedURL 2) siblingSchedule = some siblingFinal := by
  decide

/-- A call whose fetch fails only ever reaches four states. -/
theorem fail_states {fetcher : Fetcher} {m0 : VisitMap} {url : String} {depth : Int}
    (hd : 0 < depth) (hm : mapGet m0 url = none) (he : (fetcher.Fetch url).err ≠ none)
    (sched : List Nat) (s : State)
    (h : Crawl.run fetcher (Crawl.start m0 url depth) sched = some s) :
    s = Crawl.start m0 url depth ∨ s = Crawl.claimedState m0 url depth ∨
      s = Crawl.fetchedState fetcher m0 url depth ∨ s = Crawl.failedState fetcher m0 url depth := by
  refine run_closed (fun s => s = Crawl.start m0 url depth ∨ s = Crawl.claimedState m0 url depth ∨
      s = Crawl.fetchedState fetcher m0 url depth ∨ s = Crawl.failedState fetcher m0 url depth)
    ?_ sched _ s (Or.inl rfl) h
  intro s i s' hs hstep
  have hd' : ¬ depth ≤ 0 := by omega
  rcases hs with rfl | rfl | rfl | rfl
  · right; left
    cases i with
    | zero =>
      simp [Crawl.step, Crawl.start, rootCall, hd', hm] at hstep
      rw [← hstep]
      rfl
    | succ n => simp [Crawl.step, Crawl.start] at hstep
  · right; right; left
    cases i with
    | zero =>
      simp [Crawl.step, Crawl.claimedState] at hstep
      rw [← hstep]
      rfl
    | succ n => simp [Crawl.step, Crawl.claimedState] at hstep
  · right; right; right
    cases i with
    | zero =>
      simp [Crawl.step, Crawl.fetchedState, he] at hstep
      rw [← hstep]
      rfl
    | succ n => simp [Crawl.step, Crawl.fetchedState] at hstep
  · cases i with
    | zero => simp [Crawl.step, Crawl.failedState] at hstep
    | succ n => simp [Crawl.step, Crawl.failedState] at hstep

theorem fail_run {fetcher : Fetcher} {m0 : VisitMap} {url : String} {depth : Int}
    (hd : 0 < depth) (hm : mapGet m0 url = none) (he : (fetcher.Fetch url).err ≠ none) :
    Crawl.run fetcher (Crawl.start m0 url depth) [0, 0, 0]
      = some (Crawl.failedState fetcher m0 url depth) := by
  have hd' : ¬ depth ≤ 0 := by omega
  simp [Crawl.run, Crawl.step, Crawl.start, rootCall, hd', hm, he, Crawl.failedState]

/-- Every call has a run in which it returns. -/
theorem exists_complete_run (fetcher : Fetcher) (m0 : VisitMap) (url : String) (depth : Int) :
    ∃ sched s, Crawl.run fetcher (Crawl.start m0 url depth) sched = some s ∧ s.rootReturned := by
  obtain ⟨sched, s, hr, hst⟩ := exists_stuck fetcher _ (Crawl.start m0 url depth) (le_refl _)
  exact ⟨sched, s, hr, progress (inv_reach hr) hst⟩

/-- A key absent at the start and present when the root call has returned was
fetched, and holds the error of its fetch. -/
theorem final_added {fetcher : Fetcher} {m0 : VisitMap} {url0 : String} {depth0 : Int}
    {s : State} (hinv : CrawlInv fetcher m0 url0 depth0 s) (hret : s.rootReturned)
    {k : String} (h0 : mapGet m0 k = none) (h1 : mapGet s.fetched k ≠ none) :
    k ∈ s.calls ∧ mapGet s.fetched k = some (fetcher.Fetch k).err := by
  have hm := final_map hinv hret k
  by_cases hc : k ∈ s.calls
  · rw [if_pos hc] at hm
    exact ⟨hc, hm⟩
  · rw [if_neg hc, h0] at hm
    exact absurd hm h1

/-! ## The map as a list of entries -/

theorem mem_keys_mapSet (m : VisitMap) (k a : String) (v : Option Error) :
    a ∈ (mapSet m k v).map Prod.fst ↔ a = k ∨ a ∈ m.map Prod.fst := by
  induction m with
  | nil => simp [mapSet]
  | cons e r ih =>
    obtain ⟨k', v'⟩ := e
    by_cases hk : k' = k
    · subst hk
      simp [mapSet]
    · simp only [mapSet, hk, if_false, List.map_cons, List.mem_cons, ih]
      tauto

theorem keys_nodup_mapSet (m : VisitMap) (k : String) (v : Option Error)
    (h : (m.map Prod.fst).Nodup) : ((mapSet m k v).map Prod.fst).Nodup := by
  induction m with
  | nil => simp [mapSet]
  | cons e r ih =>
    obtain ⟨k', v'⟩ := e
    simp only [List.map_cons, List.nodup_cons] at h
    by_cases hk : k' = k
    · subst hk
      simp only [mapSet, if_true, List.map_cons, List.nodup_cons]
      exact h
    · simp only [mapSet, hk, if_false, List.map_cons, List.nodup_cons]
      refine ⟨?_, ih h.2⟩
      rw [mem_keys_mapSet]
      rintro (e | e)
      · exact hk e
      · exact h.1 e

theorem mapGet_of_mem (m : VisitMap) (h : (m.map Prod.fst).Nodup) (e : String × Option Error)
    (he : e ∈ m) : mapGet m e.1 = some e.2 := by
  induction m with
  | nil => cases he
  | cons a r ih =>
    obtain ⟨k', v'⟩ := a
    simp only [List.map_cons, List.nodup_cons] at h
    rcases List.mem_cons.1 he with rfl | hr
    · simp [mapGet]
    · have hne : ¬ k' = e.1 := by
        intro x
        apply h.1
        rw [x]
        exact List.mem_map.2 ⟨e, hr, rfl⟩
      simp only [mapGet, hne, if_false]
      exact ih h.2 hr

theorem keys_nodup_step {fetcher : Fetcher} {s s' : State} {i : Nat}
    (h : StepRel fetcher s i s') (hn : (s.fetched.map Prod.fst).Nodup) :
    (s'.fetched.map Prod.fst).Nodup := by
  cases h with
  | skip t h hpc hc => exact hn
  | claim t h hpc hd hmap => exact keys_nodup_mapSet _ _ _ hn
  | fetch t h hpc => exact hn
  | resolveErr t r h hpc hr he => exact keys_nodup_mapSet _ _ _ hn
  | resolveOk t r h hpc hr he => exact keys_nodup_mapSet _ _ _ hn
  | spawn t u rest h hpc => exact hn
  | spawned t r h hpc hr => exact hn
  | finish t h hpc => exact hn
  | send t tp p u rest h hpc hp hgp hppc => exact hn

theorem keys_nodup_run {fetcher : Fetcher} (sched : List Nat) (s s' : State)
    (hn : (s.fetched.map Prod.fst).Nodup) (h : Crawl.run fetcher s sched = some s') :
    (s'.fetched.map Prod.fst).Nodup :=
  run_closed (fun s => (s.fetched.map Prod.fst).Nodup)
    (fun _ _ _ hs hstep => keys_nodup_step (step_rel hstep) hs) sched s s' hn h

theorem fetched_grows_run {fetcher : Fetcher} (sched : List Nat) (s s' : State) (k : String)
    (hk : mapGet s.fetched k ≠ none) (h : Crawl.run fetcher s sched = some s') :
    mapGet s'.fetched k ≠ none :=
  run_closed (fun s => mapGet s.fetched k ≠ none)
    (fun _ _ _ hs hstep => fetched_grows (step_rel hstep) k hs) sched s s' hk h

/-- Every run can be continued until the root call has returned. -/
theorem can_finish {fetcher : Fetcher} {m0 : VisitMap} {url : String} {depth : Int}
    {sched : List Nat} {s : State}
    (h : Crawl.run fetcher (Crawl.start m0 url depth) sched = some s) :
    ∃ sched' s', Crawl.run fetcher s sched' = some s' ∧ s'.rootReturned := by
  obtain ⟨sched', s', hr, hst⟩ := exists_stuck fetcher _ s (le_refl _)
  exact ⟨sched', s', hr, progress (inv_run sched' s s' (inv_reach h) hr) hst⟩

/-! ## The properties of `Crawl` -/

theorem writesTo_ne_nil {s : State} {k : String} (h : s.writesTo k ≠ []) :
    ∃ e ∈ s.writes, e.1 = k := by
  unfold State.writesTo at h
  cases hf : s.writes.filter (fun e => e.1 = k) with
  | nil => rw [hf] at h; simp at h
  | cons e r =>
    have : e ∈ s.writes.filter (fun e => e.1 = k) := by rw [hf]; simp
    rw [List.mem_filter] at this
    exact ⟨e, this.1, by simpa using this.2⟩

theorem added_written {fetcher : Fetcher} {m0 : VisitMap} {url0 : String} {depth0 : Int}
    {s : State} (hinv : CrawlInv fetcher m0 url0 depth0 s) {k : String}
    (h0 : mapGet m0 k = none) (h1 : mapGet s.fetched k ≠ none) : s.writesTo k ≠ [] := by
  intro hw
  have := hinv.mapw k
  rw [hw] at this
  simp only [List.getLast?_nil] at this
  rw [this] at h1
  exact h1 h0

/-- C1 (at-most-once fetch).  In every state of every run of `Crawl` started
from the empty visited map, for every fetcher, start URL and depth, each URL
has been passed to `fetcher.Fetch` at most once. -/
theorem fetch_at_most_once (fetcher : Fetcher) (url : String) (depth : Int)
    (sched : List Nat) (s : State)
    (h : Crawl.run fetcher (Crawl.start [] url depth) sched = some s) (u : String) :
    s.calls.count u ≤ 1 :=
  List.nodup_iff_count_le_one.1 (inv_reach h).nodup u

theorem fetch_at_most_once_witness :
    Crawl.run stubFetcher (Crawl.start [] seedURL 2) stubSchedule = some stubFinal ∧
      stubFinal.calls.count bURL ≤ 1 :=
  ⟨by decide, fetch_at_most_once stubFetcher seedURL 2 stubSchedule stubFinal (by decide) bURL⟩

/-- C2 (depth bound).  In every state of every run of `Crawl(url, depth, fetcher)`,
every URL fetched, every key written and every key added to the map is reachable
from `url` by at most `depth-1` links returned by successful fetches (and
`depth` is positive); for `depth <= 0` nothing is fetched and the map is
unchanged, whatever the map held for `url`. -/
theorem depth_bound (fetcher : Fetcher) (m0 : VisitMap) (url : String) (depth : Int)
    (sched : List Nat) (s : State)
    (h : Crawl.run fetcher (Crawl.start m0 url depth) sched = some s) :
    (∀ u ∈ s.calls, 0 < depth ∧ u ∈ reachWithin fetcher (depth - 1).toNat url) ∧
    (∀ e ∈ s.writes, 0 < depth ∧ e.1 ∈ reachWithin fetcher (depth - 1).toNat url) ∧
    (∀ k, mapGet m0 k = none → mapGet s.fetched k ≠ none →
      0 < depth ∧ k ∈ reachWithin fetcher (depth - 1).toNat url) ∧
    (depth ≤ 0 → s.calls = [] ∧ s.fetched = m0) := by
  have hinv := inv_reach h
  refine ⟨hinv.callsReach, hinv.writesReach, ?_, ?_⟩
  · intro k h0 h1
    obtain ⟨e, he, hk⟩ := writesTo_ne_nil (added_written hinv h0 h1)
    rw [← hk]
    exact hinv.writesReach e he
  · intro hd
    rcases skip_states (Or.inl hd) sched s h with rfl | rfl
    · exact ⟨rfl, rfl⟩
    · exact ⟨rfl, rfl⟩

theorem depth_bound_witness :
    Crawl.run stubFetcher (Crawl.start [] seedURL 2) stubSchedule = some stubFinal ∧
    ((∀ u ∈ stubFinal.calls, (0 : Int) < 2 ∧ u ∈ reachWithin stubFetcher ((2 : Int) - 1).toNat seedURL) ∧
    (∀ e ∈ stubFinal.writes,
      (0 : Int) < 2 ∧ e.1 ∈ reachWithin stubFetcher ((2 : Int) - 1).toNat seedURL) ∧
    (∀ k, mapGet [] k = none → mapGet stubFinal.fetched k ≠ none →
      (0 : Int) < 2 ∧ k ∈ reachWithin stubFetcher ((2 : Int) - 1).toNat seedURL) ∧
    ((2 : Int) ≤ 0 → stubFinal.calls = [] ∧ stubFinal.fetched = [])) :=
  ⟨by decide, depth_bound stubFetcher [] seedURL 2 stubSchedule stubFinal (by decide)⟩

/-- C3 (visited early exit).  For `depth > 0` and a URL that already has an
entry in the map, whatever its value, the first step of `Crawl` is its return,
and in every state of every run the map is unchanged, `Fetch` has not been
called, and no child goroutine exists. -/
theorem visited_early_exit (fetcher : Fetcher) (m0 : VisitMap) (url : String) (depth : Int)
    (_hd : 0 < depth) (hv : mapGet m0 url ≠ none) :
    Crawl.step fetcher (Crawl.start m0 url depth) 0 = some (Crawl.skipped m0 url depth) ∧
    (Crawl.skipped m0 url depth).rootReturned ∧
    ∀ (sched : List Nat) (s : State),
      Crawl.run fetcher (Crawl.start m0 url depth) sched = some s →
        s.fetched = m0 ∧ s.calls = [] ∧ s.writes = [] ∧ s.gs.length = 1 ∧
          (s.stuck fetcher → s = Crawl.skipped m0 url depth) := by
  refine ⟨skip_step (Or.inr hv), ⟨_, rfl, rfl⟩, ?_⟩
  intro sched s h
  rcases skip_states (Or.inr hv) sched s h with rfl | rfl
  · refine ⟨rfl, rfl, rfl, rfl, ?_⟩
    intro hst
    have := hst 0
    rw [skip_step (Or.inr hv)] at this
    cases this
  · exact ⟨rfl, rfl, rfl, rfl, fun _ => rfl⟩

theorem visited_early_exit_witness :
    ((0 : Int) < 2 ∧ mapGet [(seedURL, some Error.loading)] seedURL ≠ none) ∧
    Crawl.step stubFetcher (Crawl.start [(seedURL, some Error.loading)] seedURL 2) 0
      = some (Crawl.skipped [(seedURL, some Error.loading)] seedURL 2) :=
  ⟨⟨by decide, by decide⟩,
    (visited_early_exit stubFetcher [(seedURL, some Error.loading)] seedURL 2
      (by decide) (by decide)).1⟩

/-- C4 (failure isolation).  First part: a call `Crawl(url, depth, fetcher)` with
`depth > 0`, `url` unvisited and `Fetch(url)` failing with `e` returns after
three steps in the state `Crawl.failedState`, the only state in which it has
returned: the entry of `url` is `e`, no other entry changed, `Fetch` was called
once, and there is no child goroutine.  Second part: for a page `P` crawled at
depth at least 2 whose fetch succeeds with links containing distinct unvisited
`A` and `B`, where `Fetch(A)` fails with `e` and `Fetch(B)` succeeds, the call
for `P` can return, and whenever it has returned the map holds `A -> e` and
`B -> nil`. -/
theorem failure_isolation (fetcher : Fetcher) (m0 : VisitMap) (depth : Int) :
    (∀ (url : String) (e : Error), 0 < depth → mapGet m0 url = none →
      (fetcher.Fetch url).err = some e →
        Crawl.run fetcher (Crawl.start m0 url depth) [0, 0, 0]
          = some (Crawl.failedState fetcher m0 url depth) ∧
        ∀ (sched : List Nat) (s : State),
          Crawl.run fetcher (Crawl.start m0 url depth) sched = some s → s.rootReturned →
            s = Crawl.failedState fetcher m0 url depth ∧
            mapGet s.fetched url = some (some e) ∧
            (∀ k, k ≠ url → mapGet s.fetched k = mapGet m0 k) ∧
            s.calls = [url] ∧ s.gs.length = 1) ∧
    (∀ (P A B : String) (e : Error), 1 < depth → (fetcher.Fetch P).err = none →
      A ∈ (fetcher.Fetch P).urls → B ∈ (fetcher.Fetch P).urls → A ≠ B →
      mapGet m0 P = none → mapGet m0 A = none → mapGet m0 B = none →
      (fetcher.Fetch A).err = some e → (fetcher.Fetch B).err = none →
        (∃ sched s, Crawl.run fetcher (Crawl.start m0 P depth) sched = some s ∧
          s.rootReturned) ∧
        ∀ (sched : List Nat) (s : State),
          Crawl.run fetcher (Crawl.start m0 P depth) sched = some s → s.rootReturned →
            mapGet s.fetched A = some (some e) ∧ mapGet s.fetched B = some none) := by
  constructor
  · intro url e hd hm he
    have he' : (fetcher.Fetch url).err ≠ none := by simp [he]
    refine ⟨fail_run hd hm he', ?_⟩
    intro sched s h hret
    have hs : s = Crawl.failedState fetcher m0 url depth := by
      obtain ⟨t, ht, hpc⟩ := hret
      rcases fail_states hd hm he' sched s h with rfl | rfl | rfl | rfl
      · simp [Crawl.start, rootCall] at ht
        subst ht
        simp at hpc
      · simp [Crawl.claimedState] at ht
        subst ht
        simp at hpc
      · simp [Crawl.fetchedState] at ht
        subst ht
        simp at hpc
      · rfl
    subst hs
    refine ⟨rfl, ?_, ?_, rfl, rfl⟩
    · simp [Crawl.failedState, mapGet_mapSet, he]
    · intro k hk
      have hk' : ¬ url = k := fun x => hk x.symm
      simp [Crawl.failedState, mapGet_mapSet, hk']
  · intro P A B e hd heP hA hB _ hmP hmA hmB heA heB
    refine ⟨exists_complete_run fetcher m0 P depth, ?_⟩
    intro sched s h hret
    have hinv := inv_reach h
    have hA' := final_added hinv hret hmA (final_links_covered hinv hret hd hmP heP A hA)
    have hB' := final_added hinv hret hmB (final_links_covered hinv hret hd hmP heP B hB)
    exact ⟨by rw [hA'.2, heA], by rw [hB'.2, heB]⟩

theorem failure_isolation_witness :
    (((0 : Int) < 2 ∧ mapGet [] aURL = none ∧
        (siblingFetcher.Fetch aURL).err = some (notFound aURL)) ∧
      Crawl.run siblingFetcher (Crawl.start [] aURL 2) [0, 0, 0]
        = some (Crawl.failedState siblingFetcher [] aURL 2)) ∧
    (((1 : Int) < 2 ∧ (siblingFetcher.Fetch seedURL).err = none ∧
        aURL ∈ (siblingFetcher.Fetch seedURL).urls ∧ bURL ∈ (siblingFetcher.Fetch seedURL).urls ∧
        aURL ≠ bURL ∧ (siblingFetcher.Fetch bURL).err = none ∧
        Crawl.run siblingFetcher (Crawl.start [] seedURL 2) siblingSchedule = some siblingFinal ∧
        siblingFinal.rootReturned) ∧
      mapGet siblingFinal.fetched aURL = some (some (notFound aURL)) ∧
      mapGet siblingFinal.fetched bURL = some none) :=
  ⟨⟨⟨by decide, by decide, by decide⟩,
      ((failure_isolation siblingFetcher [] 2).1 aURL (notFound aURL)
        (by decide) (by decide) (by decide)).1⟩,
    ⟨⟨by decide, by decide, by decide, by decide, by decide, by decide, by decide,
        ⟨_, rfl, rfl⟩⟩,
      ((failure_isolation siblingFetcher [] 2).2 seedURL aURL bURL (notFound aURL)
        (by decide) (by decide) (by decide) (by decide) (by decide) (by decide) (by decide)
        (by decide) (by decide) (by decide)).2 siblingSchedule siblingFinal (by decide)
        ⟨_, rfl, rfl⟩⟩⟩

/-- C5 (termination; idempotent revisit on a cycle).  For every fetcher, map,
URL and depth: a run of `Crawl(url, depth, fetcher)` has at most
`cost fetcher depth.toNat url` steps; every child goroutine was started with
its parent's depth minus one; a state in which no goroutine can step is one in
which the root call has returned; and every run can be continued to such a
state.  For a fetcher with `Fetch(A) = [B]` and `Fetch(B) = [A]`, both
succeeding, `A != B`, and `depth >= 2`, whenever `Crawl(A, depth, fetcher)`
started from the empty map has returned, `A` and `B` have each been fetched
exactly once. -/
theorem cycle_terminates (fetcher : Fetcher) :
    (∀ (m0 : VisitMap) (url : String) (depth : Int) (sched : List Nat) (s : State),
      Crawl.run fetcher (Crawl.start m0 url depth) sched = some s →
        sched.length ≤ cost fetcher depth.toNat url ∧
        (∀ (j p : Nat) (c : Goroutine), s.gs[j]? = some c → c.parent = some p →
          ∃ tp, s.gs[p]? = some tp ∧ c.depth = tp.depth - 1) ∧
        (s.stuck fetcher → s.rootReturned) ∧
        ∃ sched' s', Crawl.run fetcher s sched' = some s' ∧ s'.stuck fetcher ∧
          s'.rootReturned) ∧
    (∀ (A B : String) (depth : Int), A ≠ B →
      (fetcher.Fetch A).urls = [B] → (fetcher.Fetch A).err = none →
      (fetcher.Fetch B).urls = [A] → (fetcher.Fetch B).err = none → 2 ≤ depth →
      ∀ (sched : List Nat) (s : State),
        Crawl.run fetcher (Crawl.start [] A depth) sched = some s → s.rootReturned →
          s.calls.count A = 1 ∧ s.calls.count B = 1) := by
  constructor
  · intro m0 url depth sched s h
    have hinv := inv_reach h
    refine ⟨?_, ?_, progress hinv, ?_⟩
    · have := run_length sched _ s h
      rw [stepsLeft_init] at this
      omega
    · intro j p c hj hp
      have := hinv.par j c hj
      unfold ParOK at this
      rw [hp] at this
      exact this.2
    · obtain ⟨sched', s', hr, hst⟩ := exists_stuck fetcher _ s (le_refl _)
      exact ⟨sched', s', hr, hst, progress (inv_run sched' s s' hinv hr) hst⟩
  · intro A B depth _ hA heA _ _ hd sched s h hret
    have hinv := inv_reach h
    have h0 : ∀ k, mapGet ([] : VisitMap) k = none := fun _ => rfl
    have hcA := (final_added hinv hret (h0 A) (final_root_covered hinv hret (by omega))).1
    have hcB := (final_added hinv hret (h0 B)
      (final_links_covered hinv hret (by omega) (h0 A) heA B (by rw [hA]; simp))).1
    exact ⟨List.count_eq_one_of_mem hinv.nodup hcA, List.count_eq_one_of_mem hinv.nodup hcB⟩

theorem cycle_terminates_witness :
    (Crawl.run cycleFetcher (Crawl.start [] aURL 3) cycleSchedule = some cycleFinal ∧
      cycleSchedule.length ≤ cost cycleFetcher (3 : Int).toNat aURL) ∧
    ((aURL ≠ bURL ∧ (cycleFetcher.Fetch aURL).urls = [bURL] ∧
        (cycleFetcher.Fetch aURL).err = none ∧ (cycleFetcher.Fetch bURL).urls = [aURL] ∧
        (cycleFetcher.Fetch bURL).err = none ∧ (2 : Int) ≤ 3 ∧ cycleFinal.rootReturned) ∧
      cycleFinal.calls.count aURL = 1 ∧ cycleFinal.calls.count bURL = 1) :=
  ⟨⟨by decide,
      ((cycle_terminates cycleFetcher).1 [] aURL 3 cycleSchedule cycleFinal (by decide)).1⟩,
    ⟨⟨by decide, by decide, by decide, by decide, by decide, by decide, ⟨_, rfl, rfl⟩⟩,
      (cycle_terminates cycleFetcher).2 aURL bURL 3 (by decide) (by decide) (by decide)
        (by decide) (by decide) (by decide) cycleSchedule cycleFinal (by decide)
        ⟨_, rfl, rfl⟩⟩⟩

theorem stub_reach : reachWithin stubFetcher 1 seedURL = [seedURL, aURL, bURL] := by
  decide

/-- C6 (example scenario).  With the stub fetcher `seed -> [a, b]`,
`a -> [b, c]`, `b -> []`, `c -> [a]`, every run of `Crawl(seed, 2, fetcher)`
started from the empty map can be continued until the call has returned, and
whenever it has returned: `seed`, `a` and `b` have each been fetched exactly
once and nothing else has been fetched, in particular not `c`; every call made
for `c` had depth at most 0; and the map has exactly the keys `seed`, `a`, `b`,
each with value `nil`. -/
theorem example_scenario (sched : List Nat) (s : State)
    (h : Crawl.run stubFetcher (Crawl.start [] seedURL 2) sched = some s) :
    (∃ sched' s', Crawl.run stubFetcher s sched' = some s' ∧ s'.rootReturned) ∧
    (s.rootReturned →
      s.calls.count seedURL = 1 ∧ s.calls.count aURL = 1 ∧ s.calls.count bURL = 1 ∧
      (∀ u, u ∈ s.calls ↔ u = seedURL ∨ u = aURL ∨ u = bURL) ∧
      cURL ∉ s.calls ∧
      (∀ (j : Nat) (t : Goroutine), s.gs[j]? = some t → t.url = cURL → t.depth ≤ 0) ∧
      (∀ k, mapGet s.fetched k =
        if k = seedURL ∨ k = aURL ∨ k = bURL then some none else none)) := by
  refine ⟨can_finish h, ?_⟩
  intro hret
  have hinv := inv_reach h
  have h0 : ∀ k, mapGet ([] : VisitMap) k = none := fun _ => rfl
  have hsub : ∀ u ∈ s.calls, u = seedURL ∨ u = aURL ∨ u = bURL := by
    intro u hu
    have := (hinv.callsReach u hu).2
    have e : ((2 : Int) - 1).toNat = 1 := by decide
    rw [e, stub_reach] at this
    simpa using this
  have hseed := (final_added hinv hret (h0 seedURL)
    (final_root_covered hinv hret (by decide))).1
  have ha := (final_added hinv hret (h0 aURL)
    (final_links_covered hinv hret (by decide) (h0 seedURL) (by decide) aURL (by decide))).1
  have hb := (final_added hinv hret (h0 bURL)
    (final_links_covered hinv hret (by decide) (h0 seedURL) (by decide) bURL (by decide))).1
  have hmem : ∀ u, u ∈ s.calls ↔ u = seedURL ∨ u = aURL ∨ u = bURL := by
    intro u
    constructor
    · exact hsub u
    · rintro (rfl | rfl | rfl)
      · exact hseed
      · exact ha
      · exact hb
  refine ⟨List.count_eq_one_of_mem hinv.nodup hseed, List.count_eq_one_of_mem hinv.nodup ha,
    List.count_eq_one_of_mem hinv.nodup hb, hmem, ?_, ?_, ?_⟩
  · intro hc
    have := hsub cURL hc
    revert this
    decide
  · intro j t hj hu
    by_contra hpos
    have hr := hinv.rch j t hj
    obtain ⟨_, r2⟩ := hr
    have hle : ((2 : Int) - t.depth).toNat ≤ 1 := by omega
    have := reachWithin_mono stubFetcher hle seedURL t.url r2
    rw [stub_reach, hu] at this
    revert this
    decide
  · intro k
    rw [final_map hinv hret k]
    by_cases hk : k ∈ s.calls
    · have hk' := (hmem k).1 hk
      rw [if_pos hk, if_pos hk']
      rcases hk' with rfl | rfl | rfl <;> decide
    · have hk' : ¬ (k = seedURL ∨ k = aURL ∨ k = bURL) := fun x => hk ((hmem k).2 x)
      rw [if_neg hk, if_neg hk']
      rfl

theorem example_scenario_witness :
    (Crawl.run stubFetcher (Crawl.start [] seedURL 2) stubSchedule = some stubFinal ∧
      stubFinal.rootReturned) ∧
    stubFinal.calls.count seedURL = 1 ∧ stubFinal.calls.count aURL = 1 ∧
    stubFinal.calls.count bURL = 1 ∧ cURL ∉ stubFinal.calls ∧
    mapGet stubFinal.fetched cURL = none :=
  have h := (example_scenario stubSchedule stubFinal (by decide)).2 ⟨_, rfl, rfl⟩
  ⟨⟨by decide, ⟨_, rfl, rfl⟩⟩, h.1, h.2.1, h.2.2.1, h.2.2.2.2.1, by decide⟩

/-- C7 (completion ordering).  In every state of every run, for every
goroutine `p` whose `Crawl` call has returned: every child goroutine it started
has completed its `done <- true`, hence has returned from its own `Crawl`; the
number of signals it received is the number of children it started; a call
that did not fetch or whose fetch failed started no child; and a call whose
fetch succeeded started one child per element of the fetched link list, in
order and counting duplicates, each with the call's depth minus one. -/
theorem completion_ordering (fetcher : Fetcher) (m0 : VisitMap) (url : String) (depth : Int)
    (sched : List Nat) (s : State)
    (h : Crawl.run fetcher (Crawl.start m0 url depth) sched = some s)
    (p : Nat) (t : Goroutine) (hp : s.gs[p]? = some t)
    (hdone : t.pc = PC.returned ∨ t.pc = PC.exited) :
    (∀ c ∈ s.kids p, c.pc = PC.exited) ∧
    t.recvd = (s.kids p).length ∧
    (t.res = none → s.kids p = []) ∧
    (∀ r, t.res = some r → r = fetcher.Fetch t.url ∧
      (r.err ≠ none → s.kids p = []) ∧
      (r.err = none →
        (s.kids p).map (fun c => (c.url, c.depth)) = r.urls.map (fun u => (u, t.depth - 1)) ∧
        t.recvd = r.urls.length)) := by
  have hinv := inv_reach h
  obtain ⟨k1, k2, _, k4⟩ := hinv.kc p t hp
  have ha := k4 hdone
  have hkk : kidsKey s.gs p = (s.kids p).map (fun c => (c.url, c.depth)) := rfl
  have hpend : pending t = [] := by
    rcases hdone with e | e <;> simp [pending, e]
  have htar : target t =
      match t.res with
      | some r => if r.err = none then r.urls else []
      | none => [] := by
    rcases hdone with e | e <;> simp [target, e]
  rw [hpend, htar, hkk] at k1
  simp only [List.map_nil, List.append_nil] at k1
  rw [ha, hkk, List.length_map] at k2
  refine ⟨?_, by omega, ?_, ?_⟩
  · intro c hc
    unfold State.kids at hc
    rw [List.mem_filter] at hc
    obtain ⟨jc, hjc⟩ := List.getElem?_of_mem hc.1
    exact alive_zero_child ha hjc (by simpa using hc.2)
  · intro hr
    rw [hr] at k1
    simpa using k1
  · intro r hr
    rw [hr] at k1
    refine ⟨(hinv.loc p t hp).1 r hr, ?_, ?_⟩
    · intro he
      simp only [he, if_false, List.map_nil] at k1
      simpa using k1
    · intro he
      simp only [he, if_true] at k1
      refine ⟨k1, ?_⟩
      have := congrArg List.length k1
      simp only [List.length_map] at this
      omega

theorem completion_ordering_witness :
    (Crawl.run stubFetcher (Crawl.start [] seedURL 2) stubSchedule = some stubFinal ∧
      stubFinal.gs[1]? = some ⟨some 0, aURL, 1, PC.exited, some ⟨"", [bURL, cURL], none⟩, 2⟩) ∧
    (∀ c ∈ stubFinal.kids 1, c.pc = PC.exited) ∧
    (2 : Nat) = (stubFinal.kids 1).length :=
  have h := completion_ordering stubFetcher [] seedURL 2 stubSchedule stubFinal (by decide) 1
    ⟨some 0, aURL, 1, PC.exited, some ⟨"", [bURL, cURL], none⟩, 2⟩ (by decide) (Or.inr rfl)
  ⟨⟨by decide, by decide⟩, h.1, h.2.1⟩

/-- C8 (every entry is resolved on return).  For a fetcher that never returns
the sentinel `loading` as its error, every run of the root call started from
the empty map can be continued until the call has returned, and whenever it
has returned: every map entry holds the error returned by `Fetch` for its key
(nil for success), which is not `loading`, and that key was fetched exactly
once; every entry of the map is the one its key looks up; and the report of
`main` prints for every entry the line chosen by the result of `Fetch` for its
key. -/
theorem entries_resolved (fetcher : Fetcher)
    (hno : ∀ u, (fetcher.Fetch u).err ≠ some Error.loading)
    (seed : String) (depth : Int) (sched : List Nat) (s : State)
    (h : Crawl.run fetcher (Crawl.start [] seed depth) sched = some s) :
    (∃ sched' s', Crawl.run fetcher s sched' = some s' ∧ s'.rootReturned) ∧
    (s.rootReturned →
      (∀ k v, mapGet s.fetched k = some v →
        v ≠ some Error.loading ∧ v = (fetcher.Fetch k).err ∧ s.calls.count k = 1) ∧
      (∀ e ∈ s.fetched, mapGet s.fetched e.1 = some e.2) ∧
      stats s.fetched = s.fetched.map (fun e =>
        match (fetcher.Fetch e.1).err with
        | some err => e.1 ++ " failed: " ++ err.text ++ "\n"
        | none => e.1 ++ " was fetched\n")) := by
  refine ⟨can_finish h, ?_⟩
  intro hret
  have hinv := inv_reach h
  have hkeys : (s.fetched.map Prod.fst).Nodup :=
    keys_nodup_run sched _ s (by simp [Crawl.start]) h
  have hval : ∀ k v, mapGet s.fetched k = some v →
      v ≠ some Error.loading ∧ v = (fetcher.Fetch k).err ∧ s.calls.count k = 1 := by
    intro k v hv
    obtain ⟨hc, he⟩ := final_added hinv hret (k := k) rfl (by rw [hv]; simp)
    rw [hv] at he
    simp only [Option.some.injEq] at he
    exact ⟨by rw [he]; exact hno k, he, List.count_eq_one_of_mem hinv.nodup hc⟩
  refine ⟨hval, fun e he => mapGet_of_mem _ hkeys e he, ?_⟩
  unfold stats
  apply List.map_congr_left
  intro e he
  have := (hval e.1 e.2 (mapGet_of_mem _ hkeys e he)).2.1
  rw [this]

theorem stub_never_loading (u : String) : (stubFetcher.Fetch u).err ≠ some Error.loading := by
  simp only [stubFetcher]
  split_ifs <;> simp [notFound]

theorem entries_resolved_witness :
    ((∀ u, (stubFetcher.Fetch u).err ≠ some Error.loading) ∧
      Crawl.run stubFetcher (Crawl.start [] seedURL 2) stubSchedule = some stubFinal ∧
      stubFinal.rootReturned) ∧
    stats stubFinal.fetched = stubFinal.fetched.map (fun e =>
      match (stubFetcher.Fetch e.1).err with
      | some err => e.1 ++ " failed: " ++ err.text ++ "\n"
      | none => e.1 ++ " was fetched\n") :=
  ⟨⟨stub_never_loading, by decide, ⟨_, rfl, rfl⟩⟩,
    ((entries_resolved stubFetcher stub_never_loading seedURL 2 stubSchedule stubFinal
      (by decide)).2 ⟨_, rfl, rfl⟩).2.2⟩

/-- C9 (the map only grows and entries are never rewritten).  In every state
of every run of `Crawl` started with the map holding `m0`: every entry of `m0`
is still present with its value; the writes made to any key are nothing, or
`loading`, or `loading` followed by the error of `Fetch` for that key, and
were made only to keys absent from `m0`; the entry of a key is its last write,
or its entry in `m0` if it was never written; and an entry present now is
present in every later state. -/
theorem map_only_grows (fetcher : Fetcher) (m0 : VisitMap) (url : String) (depth : Int)
    (sched : List Nat) (s : State)
    (h : Crawl.run fetcher (Crawl.start m0 url depth) sched = some s) :
    (∀ k v, mapGet m0 k = some v → mapGet s.fetched k = some v) ∧
    (∀ k, (s.writesTo k = [] ∨ s.writesTo k = [some Error.loading] ∨
        s.writesTo k = [some Error.loading, (fetcher.Fetch k).err]) ∧
      (s.writesTo k ≠ [] → mapGet m0 k = none) ∧
      mapGet s.fetched k =
        match (s.writesTo k).getLast? with
        | some v => some v
        | none => mapGet m0 k) ∧
    (∀ (sched' : List Nat) (s' : State) (k : String),
      Crawl.run fetcher s sched' = some s' → mapGet s.fetched k ≠ none →
        mapGet s'.fetched k ≠ none) := by
  have hinv := inv_reach h
  refine ⟨?_, ?_, ?_⟩
  · intro k v hk
    have hw : s.writesTo k = [] := by
      by_contra hne
      have := hinv.fresh k hne
      rw [hk] at this
      cases this
    have := hinv.mapw k
    rw [hw] at this
    simp only [List.getLast?_nil] at this
    rw [this, hk]
  · intro k
    refine ⟨?_, hinv.fresh k, hinv.mapw k⟩
    rcases hinv.key k with ⟨w, _⟩ | ⟨w, _⟩ | ⟨w, _⟩ | ⟨w, _⟩
    · exact Or.inl w
    · exact Or.inr (Or.inl w)
    · exact Or.inr (Or.inl w)
    · exact Or.inr (Or.inr w)
  · intro sched' s' k hr hk
    exact fetched_grows_run sched' s s' k hk hr

theorem map_only_grows_witness :
    Crawl.run siblingFetcher (Crawl.start [(cURL, none)] seedURL 2) siblingSchedule
      = some revisitFinal ∧
    mapGet [(cURL, none)] cURL = some none ∧
    mapGet revisitFinal.fetched cURL = some none :=
  ⟨by decide, by decide,
    (map_only_grows siblingFetcher [(cURL, none)] seedURL 2 siblingSchedule revisitFinal
      (by decide)).1 cURL none (by decide)⟩

theorem chain_succeeds (u : String) : (chainFetcher.Fetch u).err = none := by
  simp only [chainFetcher]
  split_ifs <;> rfl

/-- C10, counterexample.  Every fetch of `chainFetcher` succeeds and `c` is two
links from `seed`, yet there is a run of `Crawl(seed, 3, chainFetcher)` from the
empty map after whose return `c` has not been fetched and has no entry: `b` was
claimed first by the call of depth 1 made below `a`. -/
theorem complete_exploration_counterexample :
    (∀ u, (chainFetcher.Fetch u).err = none) ∧ (1 : Int) ≤ 3 ∧
    Crawl.run chainFetcher (Crawl.start [] seedURL 3) chainSchedule = some chainFinal ∧
    chainFinal.rootReturned ∧
    cURL ∈ reachWithin chainFetcher ((3 : Int) - 1).toNat seedURL ∧
    ¬ (cURL ∈ chainFinal.calls ∧ mapGet chainFinal.fetched cURL ≠ none) :=
  ⟨chain_succeeds, by decide, by decide, ⟨_, rfl, rfl⟩, by decide, by decide⟩

/-- C10, amended.  For a fetcher whose fetches all succeed, a seed and
`depth >= 1`, whenever `Crawl(seed, depth, fetcher)` started from the empty map
has returned, every URL reachable from the seed by at most `depth-1` links and
at most one link has been fetched and has an entry in the map. -/
theorem exploration_within_one_link (fetcher : Fetcher) (seed : String) (depth : Int)
    (sched : List Nat) (s : State)
    (hok : ∀ u, (fetcher.Fetch u).err = none) (hd : 1 ≤ depth)
    (h : Crawl.run fetcher (Crawl.start [] seed depth) sched = some s)
    (hret : s.rootReturned) :
    ∀ u ∈ reachWithin fetcher (min (depth - 1).toNat 1) seed,
      u ∈ s.calls ∧ mapGet s.fetched u ≠ none := by
  have hinv := inv_reach h
  have h0 : ∀ k, mapGet ([] : VisitMap) k = none := fun _ => rfl
  have hroot := final_root_covered hinv hret (by omega)
  intro u hu
  have hcov : mapGet s.fetched u ≠ none := by
    by_cases h1 : depth = 1
    · subst h1
      have e : min ((1 : Int) - 1).toNat 1 = 0 := by decide
      rw [e] at hu
      simp only [reachWithin, List.mem_singleton] at hu
      rw [hu]
      exact hroot
    · have e : min (depth - 1).toNat 1 = 1 := by omega
      rw [e] at hu
      simp only [reachWithin, List.mem_append, List.mem_singleton, List.mem_flatMap] at hu
      rcases hu with rfl | ⟨v, rfl, hv⟩
      · exact hroot
      · rw [if_pos (hok v)] at hv
        exact final_links_covered hinv hret (by omega) (h0 v) (hok v) u hv
  exact ⟨(final_added hinv hret (h0 u) hcov).1, hcov⟩

theorem exploration_within_one_link_witness :
    ((∀ u, (chainFetcher.Fetch u).err = none) ∧ (1 : Int) ≤ 3 ∧
      Crawl.run chainFetcher (Crawl.start [] seedURL 3) chainSchedule = some chainFinal ∧
      chainFinal.rootReturned ∧
      bURL ∈ reachWithin chainFetcher (min ((3 : Int) - 1).toNat 1) seedURL) ∧
    (bURL ∈ chainFinal.calls ∧ mapGet chainFinal.fetched bURL ≠ none) :=
  ⟨⟨chain_succeeds, by decide, by decide, ⟨_, rfl, rfl⟩, by decide⟩,
    exploration_within_one_link chainFetcher seedURL 3 chainSchedule chainFinal
      chain_succeeds (by decide) (by decide) ⟨_, rfl, rfl⟩ bURL (by decide)⟩
